import Mathlib

set_option autoImplicit false

/-!
Verification development for the pango technology-mapping core
(src/techlibs/pango).  The C++ sources are shallowly embedded:

* `SigBit` is modelled as `Nat`; Yosys `pool` containers are modelled as
  duplicate-free `List Nat` values whose list order is the pool's
  iteration (insertion) order, with `poolInsert` / `poolErase` mirroring
  `pool::insert` / `pool::erase`;
* `dict` containers are association lists (`alookup` / `setKey`);
* truth tables (`Const`) are `List Bool` with bit `i` at position `i`;
* `ConstEval` cone evaluation is abstracted by a semantic function
  `(Nat → Bool) → Option Bool` per cone output — `none` models a
  failing evaluation (`log_error` in the C++, which aborts the run),
  and the surrounding computations run in `Except Unit`;
* floating-point heuristic scores only permute / truncate candidate
  lists, so they are abstracted as an `Int`-valued parameter of the
  embedding; all theorems below are insensitive to the ordering.

Every definition mirrors the corresponding function in the repository;
definitions whose doc comment says so follow the specification's words
instead and exist only to be compared against the code's behaviour.
-/

/-! ### Association-list helpers (Yosys dict) -/

def alookup {β : Type} (l : List (Nat × β)) (k : Nat) : Option β :=
  match l with
  | [] => none
  | (k', v) :: t => if k' = k then some v else alookup t k

def alookupD {β : Type} (l : List (Nat × β)) (k : Nat) (d : β) : β :=
  (alookup l k).getD d

def setKey {α β : Type} [DecidableEq α] (k : α) (v : β) : List (α × β) → List (α × β)
  | [] => [(k, v)]
  | (k', v') :: t => if k' = k then (k, v) :: t else (k', v') :: setKey k v t

theorem alookup_setKey_self {β : Type} (l : List (Nat × β)) (k : Nat) (v : β) :
    alookup (setKey k v l) k = some v := by
  induction l with
  | nil => simp [setKey, alookup]
  | cons h t ih =>
    obtain ⟨k', v'⟩ := h
    by_cases hk : k' = k <;> simp [setKey, alookup, hk, ih]

theorem alookup_setKey_ne {β : Type} (l : List (Nat × β)) (k k' : Nat) (v : β)
    (h : k' ≠ k) : alookup (setKey k v l) k' = alookup l k' := by
  have hkk : ¬ k = k' := fun h' => h h'.symm
  induction l with
  | nil => simp [setKey, alookup, hkk]
  | cons hd t ih =>
    obtain ⟨k₀, v₀⟩ := hd
    by_cases hk : k₀ = k
    · subst hk
      simp [setKey, alookup, hkk]
    · simp only [setKey, if_neg hk, alookup]
      by_cases hk' : k₀ = k' <;> simp [hk', ih]

theorem mem_setKey {α β : Type} [DecidableEq α] (l : List (α × β)) (k : α) (v : β)
    (e : α × β) (he : e ∈ setKey k v l) : e = (k, v) ∨ e ∈ l := by
  induction l with
  | nil => simpa [setKey] using he
  | cons hd t ih =>
    obtain ⟨k₀, v₀⟩ := hd
    by_cases hk : k₀ = k
    · simp only [setKey, if_pos hk, List.mem_cons] at he
      rcases he with h | h
      · exact Or.inl h
      · exact Or.inr (List.mem_cons_of_mem _ h)
    · simp only [setKey, if_neg hk, List.mem_cons] at he
      rcases he with h | h
      · exact Or.inr (by simp [h])
      · rcases ih h with h' | h'
        · exact Or.inl h'
        · exact Or.inr (List.mem_cons_of_mem _ h')

theorem self_mem_keys_setKey {α β : Type} [DecidableEq α] (l : List (α × β)) (k : α) (v : β) :
    k ∈ (setKey k v l).map Prod.fst := by
  induction l with
  | nil => simp [setKey]
  | cons hd t ih =>
    obtain ⟨k₀, v₀⟩ := hd
    by_cases hk : k₀ = k <;> simp [setKey, hk, ih]

theorem mem_keys_setKey_of_mem {α β : Type} [DecidableEq α] (l : List (α × β)) (k a : α) (v : β)
    (ha : a ∈ l.map Prod.fst) : a ∈ (setKey k v l).map Prod.fst := by
  induction l with
  | nil => simp at ha
  | cons hd t ih =>
    obtain ⟨k₀, v₀⟩ := hd
    by_cases hk : k₀ = k
    · subst hk
      simp only [List.map_cons, List.mem_cons] at ha
      rcases ha with h | h
      · simp [setKey, h]
      · simp [setKey, h]
    · simp only [List.map_cons, List.mem_cons] at ha
      rcases ha with h | h
      · simp [setKey, hk, h]
      · simp only [setKey, if_neg hk, List.map_cons, List.mem_cons]
        exact Or.inr (ih h)

/-! ### Pool helpers (Yosys pool of SigBit): insertion-ordered sets -/

def poolInsert (x : Nat) (l : List Nat) : List Nat :=
  if l.contains x then l else l ++ [x]

def poolUnion (a b : List Nat) : List Nat :=
  b.foldl (fun acc x => poolInsert x acc) a

def insSorted (x : Nat) : List Nat → List Nat
  | [] => [x]
  | y :: ys => if x ≤ y then x :: y :: ys else y :: insSorted x ys

/-- The sorted view of a pool, as produced by the C++ pattern
`vector v(pool.begin(), pool.end()); std::sort(v.begin(), v.end());`. -/
def sortSigs (l : List Nat) : List Nat :=
  l.foldr insSorted []

theorem length_poolInsert_le (x : Nat) (l : List Nat) :
    (poolInsert x l).length ≤ l.length + 1 := by
  unfold poolInsert
  split <;> simp

theorem le_length_poolInsert (x : Nat) (l : List Nat) :
    l.length ≤ (poolInsert x l).length := by
  unfold poolInsert
  split <;> simp

theorem le_length_poolUnion (a b : List Nat) :
    a.length ≤ (poolUnion a b).length := by
  induction b generalizing a with
  | nil => simp [poolUnion]
  | cons y ys ih =>
    calc a.length ≤ (poolInsert y a).length := le_length_poolInsert y a
    _ ≤ (poolUnion (poolInsert y a) ys).length := ih (poolInsert y a)

theorem nodup_poolInsert (x : Nat) (l : List Nat) (h : l.Nodup) :
    (poolInsert x l).Nodup := by
  unfold poolInsert
  split
  · exact h
  · rename_i hc
    have hx : x ∉ l := by
      intro hmem
      exact hc (by simpa using hmem)
    simpa [List.nodup_append] using ⟨h, hx⟩

theorem nodup_poolUnion (a b : List Nat) (h : a.Nodup) : (poolUnion a b).Nodup := by
  induction b generalizing a with
  | nil => simpa [poolUnion] using h
  | cons y ys ih => exact ih (poolInsert y a) (nodup_poolInsert y a h)

/-! ### TruthTableComputer (src/techlibs/pango/truth_table_computer.cc) -/

/-- The input assignment used by `computeLUTInit` at input combination
`combo`: input `inputs[i]` receives bit `i` of `combo`
(truth_table_computer.cc lines 42-45); other signals are boundaries. -/
def assignOf (inputs : List Nat) (combo : Nat) : Nat → Bool := fun s =>
  match inputs.findIdx? (fun y => y == s) with
  | some i => combo.testBit i
  | none => false

/-- `TruthTableComputer::computeLUTInit` — evaluate the cone function `f`
(abstracting the `ConstEval` simulation of the cone of the output signal)
at every input combination; a failing evaluation (`none`) models the
`log_error` at truth_table_computer.cc line 55, which aborts the run. -/
def computeLUTInitE (f : (Nat → Bool) → Option Bool) (inputs : List Nat) :
    Except Unit (List Bool) :=
  (List.range (2 ^ inputs.length)).mapM fun combo =>
    match f (assignOf inputs combo) with
    | some b => Except.ok b
    | none => Except.error ()

/-- `TruthTableComputer::isIndependentOfInputs`
(truth_table_computer.cc lines 63-103), including the early return on an
empty don't-care list and the `flipped < combo` skip. -/
def isIndependentOfInputs (init : List Bool) (num_inputs : Nat) (dcs : List Nat) : Bool :=
  if dcs.isEmpty then true
  else (List.range (2 ^ num_inputs)).all fun combo =>
    dcs.all fun dc =>
      let flipped := combo ^^^ (1 <<< dc)
      if flipped < combo then true
      else init.getD combo false == init.getD flipped false

/-- The full combination built by `TruthTableComputer::projectTruthTable`
for projected combination `proj` (truth_table_computer.cc lines 119-137):
fixed positions take their fixed value, free positions consume the bits
of `proj` in increasing position order. -/
def spliceCombo (n : Nat) (fixed : List (Nat × Bool)) (proj : Nat) : Nat :=
  ((List.range n).foldl
    (fun (acc : Nat × Nat) i =>
      match alookup fixed i with
      | some b => (if b then acc.1 ||| (1 <<< i) else acc.1, acc.2)
      | none => (if proj.testBit acc.2 then acc.1 ||| (1 <<< i) else acc.1, acc.2 + 1))
    (0, 0)).1

/-- `TruthTableComputer::projectTruthTable`
(truth_table_computer.cc lines 105-148). -/
def projectTruthTable (init : List Bool) (num_inputs : Nat) (fixed : List (Nat × Bool)) :
    List Bool :=
  (List.range (2 ^ (num_inputs - fixed.length))).map fun proj =>
    init.getD (spliceCombo num_inputs fixed proj) false

/-! ### Claim C8 -/

theorem isIndependentOfInputs_empty (init : List Bool) (n : Nat) :
    isIndependentOfInputs init n [] = true := by
  simp [isIndependentOfInputs]

theorem xor_pow_ne (c : Nat) (d : Nat) : c ^^^ 2 ^ d ≠ c := by
  intro h
  have h2 : c ^^^ (c ^^^ 2 ^ d) = c ^^^ c := congrArg (c ^^^ ·) h
  rw [← Nat.xor_assoc, Nat.xor_self, Nat.zero_xor] at h2
  exact (Nat.pos_pow_of_pos d (by norm_num)).ne' h2

/-- Claim C8: isIndependentOfInputs(Init, n, dont_care_indices) returns true
iff for every combination c in 0..2^n-1 and every index d in
dont_care_indices, Init[c] = Init[c XOR 2^d]; in particular it returns
true when dont_care_indices is empty. -/
theorem isIndependentOfInputs_correct (init : List Bool) (n : Nat) (dcs : List Nat)
    (hd : ∀ d ∈ dcs, d < n) :
    (isIndependentOfInputs init n dcs = true ↔
      ∀ c < 2 ^ n, ∀ d ∈ dcs, init.getD c false = init.getD (c ^^^ 2 ^ d) false) ∧
    isIndependentOfInputs init n [] = true := by
  refine ⟨?_, isIndependentOfInputs_empty init n⟩
  by_cases hnil : dcs = []
  · subst hnil
    simp [isIndependentOfInputs_empty]
  · have hne : dcs.isEmpty = false := by
      cases dcs with
      | nil => exact absurd rfl hnil
      | cons a t => rfl
    unfold isIndependentOfInputs
    rw [hne]
    simp only [Bool.false_eq_true, if_false, List.all_eq_true, List.mem_range]
    constructor
    · intro hall c hc d hdm
      have hflip_lt : c ^^^ 2 ^ d < 2 ^ n :=
        Nat.xor_lt_two_pow hc (Nat.pow_lt_pow_right (by norm_num) (hd d hdm))
      rcases Nat.lt_trichotomy (c ^^^ 2 ^ d) c with hlt | heq | hgt
      · -- the skipped direction: apply the check at the smaller combination
        have h2 := hall (c ^^^ 2 ^ d) hflip_lt d hdm
        simp only [Nat.shiftLeft_eq, one_mul] at h2
        rw [Nat.xor_assoc, Nat.xor_self, Nat.xor_zero] at h2
        have hnotlt : ¬ c < c ^^^ 2 ^ d := Nat.not_lt.mpr (Nat.le_of_lt hlt)
        rw [if_neg hnotlt] at h2
        exact (beq_iff_eq.mp h2).symm
      · exact absurd heq (xor_pow_ne c d)
      · have h2 := hall c hc d hdm
        simp only [Nat.shiftLeft_eq, one_mul] at h2
        have hnotlt : ¬ c ^^^ 2 ^ d < c := Nat.not_lt.mpr (Nat.le_of_lt hgt)
        rw [if_neg hnotlt] at h2
        exact beq_iff_eq.mp h2
    · intro hprop combo hcombo dc hdc
      simp only [Nat.shiftLeft_eq, one_mul]
      split
      · rfl
      · exact beq_iff_eq.mpr (hprop combo hcombo dc hdc)

/-- Witness for C8 at a concrete table: Init = [1,1,0,0] over 2 inputs is
independent of input 0. -/
theorem isIndependentOfInputs_correct_witness :
    (isIndependentOfInputs [true, true, false, false] 2 [0] = true ↔
      ∀ c < 2 ^ 2, ∀ d ∈ [0],
        ([true, true, false, false].getD c false =
          [true, true, false, false].getD (c ^^^ 2 ^ d) false)) ∧
    isIndependentOfInputs [true, true, false, false] 2 [] = true :=
  isIndependentOfInputs_correct [true, true, false, false] 2 [0] (by decide)

/-! ### MappingContext (src/techlibs/pango/mapping_context.cc, mapping_context.h) -/

/-- State of a `MappingContext`: `mapping` is `current_mapping` (signal to
the input pool of its SingleCut), `refs` is `fanout_refs`, `usedL` is
`used`, `po` is the set of primary-output bits of the module (the
bit-wise expansion computed at mapping_context.cc lines 90-102 and
129-137), `cache` / `cacheIter` are `exact_area_cache` /
`cache_iteration`, and `iter` is `current_iteration`. -/
structure CtxState where
  mapping : List (Nat × List Nat)
  refs : List (Nat × Nat)
  usedL : List (Nat × Bool)
  po : List Nat
  cache : List (Nat × Nat)
  cacheIter : List (Nat × Nat)
  iter : Nat

/-- `MappingContext::getFanoutRefs` (mapping_context.cc lines 20-26). -/
def getFanoutRefs (st : CtxState) (s : Nat) : Nat :=
  alookupD st.refs s 0

/-- `MappingContext::isUsed` (mapping_context.cc lines 28-31). -/
def isUsed (st : CtxState) (s : Nat) : Bool :=
  alookupD st.usedL s false

/-- `MappingContext::getExactAreaRecursive` (mapping_context.cc lines
64-115).  The `visited` pool is threaded through sibling recursions,
exactly as the by-reference `pool<SigBit> &visited` in the C++.  The
fuel argument only bounds the recursion nesting depth; the wrapper
passes `mapping.length + 1`, which the recursion (which inserts an
unvisited mapping key at every nesting level) can never exhaust. -/
def earRec (m : List (Nat × List Nat)) (po : List Nat) (refs : List (Nat × Nat)) :
    Nat → Nat → List Nat → Nat × List Nat
  | 0, _, visited => (0, visited)
  | fuel + 1, s, visited =>
    if visited.contains s then (0, visited)
    else
      let visited' := visited ++ [s]
      match alookup m s with
      | none => (0, visited')
      | some cut =>
        if po.contains s || decide (alookupD refs s 0 > 1) then (1, visited')
        else
          cut.foldl
            (fun (acc : Nat × List Nat) x =>
              let r := earRec m po refs fuel x acc.2
              (acc.1 + r.1, r.2))
            (0, visited')

/-- The sum-over-inputs loop of `getExactAreaRecursive`
(mapping_context.cc lines 109-113). -/
def earSum (m : List (Nat × List Nat)) (po : List Nat) (refs : List (Nat × Nat))
    (fuel : Nat) (cut : List Nat) (visited : List Nat) : Nat × List Nat :=
  cut.foldl
    (fun (acc : Nat × List Nat) x =>
      let r := earRec m po refs fuel x acc.2
      (acc.1 + r.1, r.2))
    (0, visited)

/-- A non-cached exact-area computation: `getExactAreaRecursive(signal,
visited)` with a fresh empty visited pool (mapping_context.cc lines
53-55). -/
def exactAreaPure (st : CtxState) (s : Nat) : Nat :=
  (earRec st.mapping st.po st.refs (st.mapping.length + 1) s []).1

/-- `MappingContext::getExactArea` (mapping_context.cc lines 41-62):
return a cached value if its stamp equals `current_iteration`, otherwise
recompute and store.  (The C++ reads `cache_iteration[signal]` with
`operator[]`, whose default of 0 is modelled by `getD 0`; the default
entry it may insert is unobservable because `exact_area_cache` and
`cache_iteration` are always written together.) -/
def storeCache (st : CtxState) (s a : Nat) : CtxState :=
  { st with cache := setKey s a st.cache, cacheIter := setKey s st.iter st.cacheIter }

def getExactArea (st : CtxState) (s : Nat) : Nat × CtxState :=
  match alookup st.cache s with
  | some v =>
    if (alookup st.cacheIter s).getD 0 = st.iter then (v, st)
    else (exactAreaPure st s, storeCache st s (exactAreaPure st s))
  | none => (exactAreaPure st s, storeCache st s (exactAreaPure st s))

/-- `MappingContext::startNewIteration` (mapping_context.h lines 42-45). -/
def startNewIteration (st : CtxState) : CtxState :=
  { st with iter := st.iter + 1 }

/-- `GraphUtils::bfsTraverse` (graph_utils.cc lines 255-285), returning
the visit order.  `readers` maps a signal to the output signals of the
cells reading it (the composition of `getReaders` and `getCellOutput`
at lines 276-277); the fuel argument bounds the number of pops and is
never exhausted when it exceeds the number of reachable signals. -/
def bfsTraverseList (readers : Nat → List Nat) :
    Nat → List Nat → List Nat → List Nat
  | 0, _, _ => []
  | _ + 1, [], _ => []
  | fuel + 1, q :: qs, visitedSet =>
    let step :=
      (readers q).foldl
        (fun (acc : List Nat × List Nat) r =>
          if acc.2.contains r then acc else (acc.1 ++ [r], acc.2 ++ [r]))
        (qs, visitedSet)
    q :: bfsTraverseList readers fuel step.1 step.2

/-- The visitor lambda of `recoverReferences` (mapping_context.cc lines
140-153): mark the visited signal used and, if it is mapped, increment
the fanout count of each of its cut inputs. -/
def recoverVisit (m : List (Nat × List Nat)) (st' : CtxState) (s : Nat) : CtxState :=
  let st'' := { st' with usedL := setKey s true st'.usedL }
  match alookup m s with
  | some cut =>
    { st'' with refs := cut.foldl (fun r x => setKey x (alookupD r x 0 + 1) r) st''.refs }
  | none => st''

/-- The state of the context right after the clearing steps of
`recoverReferences` (mapping_context.cc lines 121-126): counts and used
marks zeroed, the argument installed as `current_mapping`. -/
def recoverBase (st : CtxState) (m : List (Nat × List Nat)) : CtxState :=
  { st with mapping := m, refs := ([] : List (Nat × Nat)),
            usedL := ([] : List (Nat × Bool)) }

/-- `MappingContext::recoverReferences` (mapping_context.cc lines
117-154): clear `fanout_refs` and `used`, install the new mapping,
collect the primary outputs, and run `bfsTraverse` from them with the
visitor of lines 140-153. -/
def recoverReferences (readers : Nat → List Nat) (fuel : Nat)
    (st : CtxState) (m : List (Nat × List Nat)) : CtxState :=
  (bfsTraverseList readers fuel st.po st.po).foldl (recoverVisit m) (recoverBase st m)

/-! #### Specification-side definitions used to test C4 and C5 -/

/-- Modelled from the spec (claim C4's wording, spec section 4.3
getExactArea): if s is a primary output or has fanout_refs greater than
1 it contributes 1 PLUS the recursive exact-area of each of its cut's
inputs, single-counting via a visited set; otherwise the sum of the
recursive exact-areas of its inputs. -/
def specExactAreaRec (m : List (Nat × List Nat)) (po : List Nat) (refs : List (Nat × Nat)) :
    Nat → Nat → List Nat → Nat × List Nat
  | 0, _, visited => (0, visited)
  | fuel + 1, s, visited =>
    if visited.contains s then (0, visited)
    else
      let visited' := visited ++ [s]
      match alookup m s with
      | none => (0, visited')
      | some cut =>
        let sub :=
          cut.foldl
            (fun (acc : Nat × List Nat) x =>
              let r := specExactAreaRec m po refs fuel x acc.2
              (acc.1 + r.1, r.2))
            (0, visited')
        if po.contains s || decide (alookupD refs s 0 > 1) then (1 + sub.1, sub.2)
        else sub

/-- Modelled from the spec (claim C4's wording): the exact area of a
signal per the claim's description. -/
def specExactArea (st : CtxState) (s : Nat) : Nat :=
  (specExactAreaRec st.mapping st.po st.refs (st.mapping.length + 1) s []).1

/-- Modelled from the spec (claim C5's wording): the number of mapping
entries whose cut inputs contain x. -/
def specFanoutCount (m : List (Nat × List Nat)) (x : Nat) : Nat :=
  (m.filter (fun kv => kv.2.contains x)).length

/-- Modelled from the spec (claim C5's wording): reverse-hypergraph
reachability — a BFS from the primary outputs that continues into the
cut inputs of every mapped signal it visits. -/
def specRevReach (m : List (Nat × List Nat)) :
    Nat → List Nat → List Nat → List Nat
  | 0, _, visited => visited
  | _ + 1, [], visited => visited
  | fuel + 1, q :: qs, visited =>
    let nexts := match alookup m q with
      | some cut => cut.filter (fun x => !(visited.contains x))
      | none => []
    specRevReach m fuel (qs ++ nexts) (visited ++ nexts)

/-! ### Claim C4 -/

/-- Concrete context used to refute claim C4: signal 7 is a primary
output mapped to cut inputs [8], and 8 is mapped with fanout count 2. -/
def ctxC4 : CtxState :=
  { mapping := [(7, [8]), (8, [9])], refs := [(8, 2)], usedL := [], po := [7],
    cache := [], cacheIter := [], iter := 0 }

/-- Counterexample to claim C4: at a primary output whose cut inputs
themselves carry positive recursive exact-area, the code returns exactly
1 (it does not add the inputs' recursive area as the claim states), while
the claim's formula yields 2. -/
theorem getExactArea_ne_specExactArea :
    (getExactArea ctxC4 7).1 = 1 ∧ specExactArea ctxC4 7 = 2 ∧
      (getExactArea ctxC4 7).1 ≠ specExactArea ctxC4 7 := by
  refine ⟨rfl, rfl, ?_⟩
  decide

/-- Claim C4 (corrected): getExactArea(s) computes
getExactAreaRecursive(s, {}) and that recursion returns 0 when s is
unmapped or already visited, exactly 1 when s is mapped and is a primary
output or has fanout_refs(s) > 1 (its inputs are NOT traversed), and
otherwise the visited-threaded sum of the recursive exact-areas of its
cut's inputs. -/
theorem getExactArea_characterisation (st : CtxState) (s : Nat) :
    (st.cache = [] → (getExactArea st s).1 = exactAreaPure st s) ∧
    (alookup st.mapping s = none → exactAreaPure st s = 0) ∧
    (∀ cut, alookup st.mapping s = some cut →
      (st.po.contains s || decide (getFanoutRefs st s > 1)) = true →
      exactAreaPure st s = 1) ∧
    (∀ cut, alookup st.mapping s = some cut →
      (st.po.contains s || decide (getFanoutRefs st s > 1)) = false →
      exactAreaPure st s =
        (earSum st.mapping st.po st.refs st.mapping.length cut [s]).1) := by
  refine ⟨?_, ?_, ?_, ?_⟩
  · intro hc
    unfold getExactArea
    rw [hc]
    rfl
  · intro hm
    unfold exactAreaPure earRec
    simp [hm]
  · intro cut hm hb
    unfold getFanoutRefs at hb
    have hprop : s ∈ st.po ∨ 1 < alookupD st.refs s 0 := by simpa using hb
    unfold exactAreaPure earRec
    simp [hm, hprop]
  · intro cut hm hb
    unfold getFanoutRefs at hb
    unfold exactAreaPure earRec
    simp only [hm]
    rw [show (([] : List Nat).contains s) = false from rfl]
    simp only [Bool.false_eq_true, if_false, hb, earSum]
    rfl

/-- Witness for the corrected C4 at the concrete context `ctxC4`:
signal 8 is mapped, not a primary output but with fanout_refs 2, and its
recursive area is exactly 1. -/
theorem getExactArea_characterisation_witness :
    exactAreaPure ctxC4 8 = 1 :=
  (getExactArea_characterisation ctxC4 8).2.2.1 [9] rfl rfl

/-! ### Claim C5 -/

/-- Concrete context used to exhibit the recoverReferences bug: one
primary output 0, no cell reads any signal forward of it. -/
def ctxC5 : CtxState :=
  { mapping := [], refs := [], usedL := [], po := [0],
    cache := [], cacheIter := [], iter := 0 }

/-- The mapping handed to recoverReferences: output 0 is computed from 1,
and 1 from 2. -/
def mapC5 : List (Nat × List Nat) := [(0, [1]), (1, [2])]

/-- No signal has forward readers in this module. -/
def readersC5 : Nat → List Nat := fun _ => []

/-- Claim C5 fails on the code: `recoverReferences` rebuilds the counts
with `bfsTraverse`, which expands through the READERS of each visited
signal (graph_utils.cc lines 276-283, the forward/fan-out direction), not
into the cut inputs of mapped signals.  Started at primary output 0 it
visits only 0, so fanout_refs(2) stays 0 although 2 is an input of
mapping(1), and used(1) stays false although 1 is reachable from the
primary output in the mapping's reverse hypergraph. -/
theorem recoverReferences_readers_bug :
    getFanoutRefs (recoverReferences readersC5 5 ctxC5 mapC5) 2 = 0 ∧
    specFanoutCount mapC5 2 = 1 ∧
    isUsed (recoverReferences readersC5 5 ctxC5 mapC5) 1 = false ∧
    1 ∈ specRevReach mapC5 5 [0] [0] ∧
    getFanoutRefs (recoverReferences readersC5 5 ctxC5 mapC5) 1 = 1 := by
  refine ⟨rfl, rfl, rfl, ?_, rfl⟩
  decide

/-! ### Claim C6 -/

/-- Cache consistency: every cache entry whose stamp matches the current
iteration holds the value a fresh recomputation would produce in the
current state. -/
def CacheOK (st : CtxState) : Prop :=
  ∀ s v, alookup st.cache s = some v →
    (alookup st.cacheIter s).getD 0 = st.iter → v = exactAreaPure st s

/-- All cache stamps are at most the current iteration (maintained by
every operation, since stores stamp with the current iteration). -/
def StampsLE (st : CtxState) : Prop :=
  ∀ s it, alookup st.cacheIter s = some it → it ≤ st.iter

theorem recoverVisit_fold_fields (m : List (Nat × List Nat)) (l : List Nat) (st₀ : CtxState) :
    (l.foldl (recoverVisit m) st₀).cache = st₀.cache ∧
    (l.foldl (recoverVisit m) st₀).cacheIter = st₀.cacheIter ∧
    (l.foldl (recoverVisit m) st₀).iter = st₀.iter ∧
    (l.foldl (recoverVisit m) st₀).mapping = st₀.mapping := by
  induction l generalizing st₀ with
  | nil => exact ⟨rfl, rfl, rfl, rfl⟩
  | cons q qs ih =>
    have hstep : (recoverVisit m st₀ q).cache = st₀.cache ∧
        (recoverVisit m st₀ q).cacheIter = st₀.cacheIter ∧
        (recoverVisit m st₀ q).iter = st₀.iter ∧
        (recoverVisit m st₀ q).mapping = st₀.mapping := by
      cases h : alookup m q <;> simp [recoverVisit, h]
    have h2 := ih (recoverVisit m st₀ q)
    simp only [List.foldl_cons]
    exact ⟨h2.1.trans hstep.1, h2.2.1.trans hstep.2.1,
      h2.2.2.1.trans hstep.2.2.1, h2.2.2.2.trans hstep.2.2.2⟩

theorem exactAreaPure_store (st : CtxState) (s a : Nat) (it : Nat) (x : Nat) :
    exactAreaPure
      { st with cache := setKey s a st.cache, cacheIter := setKey s it st.cacheIter } x =
    exactAreaPure st x := rfl

/-- Claim C6: within one iteration (state untouched since the cache
entries were stamped) getExactArea returns exactly the value of a
non-cached recomputation in the current state and preserves cache
consistency; entries stamped in an earlier iteration are never reused:
startNewIteration (and a following recoverReferences, the only code
path that mutates the context between iterations, dual_output_mapper.cc
lines 130-144 and 190-204) leaves no entry with a matching stamp, and a
lookup whose stamp differs from current_iteration always recomputes. -/
theorem getExactArea_cache_sound (st : CtxState) (s : Nat)
    (hok : CacheOK st) (hle : StampsLE st) :
    (getExactArea st s).1 = exactAreaPure st s ∧
    CacheOK (getExactArea st s).2 ∧
    StampsLE (getExactArea st s).2 ∧
    CacheOK (startNewIteration st) ∧
    (∀ readers fuel m, CacheOK (recoverReferences readers fuel (startNewIteration st) m)) ∧
    ((alookup st.cacheIter s).getD 0 ≠ st.iter →
      (getExactArea st s).1 = exactAreaPure st s) := by
  have hnext : CacheOK (startNewIteration st) := by
    intro x v hv hstamp
    exfalso
    have hci : (startNewIteration st).cacheIter = st.cacheIter := rfl
    rw [hci] at hstamp
    cases hcase : alookup st.cacheIter x with
    | none =>
      rw [hcase] at hstamp
      exact Nat.succ_ne_zero st.iter hstamp.symm
    | some it =>
      rw [hcase] at hstamp
      have h1 : it ≤ st.iter := hle x it hcase
      simp only [Option.getD_some, startNewIteration] at hstamp
      omega
  have hrecover : ∀ readers fuel m,
      CacheOK (recoverReferences readers fuel (startNewIteration st) m) := by
    intro readers fuel m x v hv hstamp
    exfalso
    have hfold := recoverVisit_fold_fields m
      (bfsTraverseList readers fuel (startNewIteration st).po (startNewIteration st).po)
      (recoverBase (startNewIteration st) m)
    have hci : (recoverReferences readers fuel (startNewIteration st) m).cacheIter
        = st.cacheIter := by
      unfold recoverReferences
      exact hfold.2.1
    have hit : (recoverReferences readers fuel (startNewIteration st) m).iter
        = st.iter + 1 := by
      unfold recoverReferences
      exact hfold.2.2.1
    rw [hci, hit] at hstamp
    cases hcase : alookup st.cacheIter x with
    | none =>
      rw [hcase] at hstamp
      exact Nat.succ_ne_zero st.iter hstamp.symm
    | some it =>
      rw [hcase] at hstamp
      have h1 : it ≤ st.iter := hle x it hcase
      simp only [Option.getD_some] at hstamp
      omega
  have hstore_ok : CacheOK (storeCache st s (exactAreaPure st s)) := by
    intro x v hv hstamp
    have hpure : exactAreaPure (storeCache st s (exactAreaPure st s)) x
        = exactAreaPure st x := rfl
    by_cases hx : x = s
    · subst hx
      have hv' : alookup (setKey x (exactAreaPure st x) st.cache) x = some v := hv
      rw [alookup_setKey_self] at hv'
      rw [hpure]
      exact (Option.some_inj.mp hv').symm
    · have hv' : alookup st.cache x = some v := by
        have h0 : alookup (setKey s (exactAreaPure st s) st.cache) x = some v := hv
        rwa [alookup_setKey_ne st.cache s x _ hx] at h0
      have hstamp' : (alookup st.cacheIter x).getD 0 = st.iter := by
        have h0 : (alookup (setKey s st.iter st.cacheIter) x).getD 0
            = (storeCache st s (exactAreaPure st s)).iter := hstamp
        rw [alookup_setKey_ne st.cacheIter s x _ hx] at h0
        exact h0
      rw [hpure]
      exact hok x v hv' hstamp'
  have hstore_le : StampsLE (storeCache st s (exactAreaPure st s)) := by
    intro x it hx
    by_cases hxs : x = s
    · subst hxs
      have h0 : alookup (setKey x st.iter st.cacheIter) x = some it := hx
      rw [alookup_setKey_self] at h0
      exact le_of_eq (Option.some_inj.mp h0).symm
    · have h0 : alookup (setKey s st.iter st.cacheIter) x = some it := hx
      rw [alookup_setKey_ne st.cacheIter s x _ hxs] at h0
      exact hle x it h0
  refine ⟨?_, ?_, ?_, hnext, hrecover, ?_⟩
  · cases hv : alookup st.cache s with
    | none => simp [getExactArea, hv]
    | some v =>
      by_cases hstamp : (alookup st.cacheIter s).getD 0 = st.iter
      · simp only [getExactArea, hv, if_pos hstamp]
        exact hok s v hv hstamp
      · simp [getExactArea, hv, hstamp]
  · cases hv : alookup st.cache s with
    | none => simpa [getExactArea, hv] using hstore_ok
    | some v =>
      by_cases hstamp : (alookup st.cacheIter s).getD 0 = st.iter
      · simpa [getExactArea, hv, hstamp] using hok
      · simpa [getExactArea, hv, hstamp] using hstore_ok
  · cases hv : alookup st.cache s with
    | none => simpa [getExactArea, hv] using hstore_le
    | some v =>
      by_cases hstamp : (alookup st.cacheIter s).getD 0 = st.iter
      · simpa [getExactArea, hv, hstamp] using hle
      · simpa [getExactArea, hv, hstamp] using hstore_le
  · intro hstale
    cases hv : alookup st.cache s with
    | none => simp [getExactArea, hv]
    | some v => simp [getExactArea, hv, hstale]

/-- Witness for C6: a concrete context with an empty cache (trivially
consistent) on which getExactArea agrees with the pure recomputation. -/
theorem getExactArea_cache_sound_witness :
    (getExactArea ctxC4 7).1 = exactAreaPure ctxC4 7 ∧
    CacheOK (getExactArea ctxC4 7).2 :=
  have h := getExactArea_cache_sound ctxC4 7
    (fun s v hv => by simp [ctxC4, alookup] at hv)
    (fun s it hit => by simp [ctxC4, alookup] at hit)
  ⟨h.1, h.2.1⟩

/-! ### GlobalMerger (src/techlibs/pango/global_merger.cc) -/

/-- `SingleCut` (heuristic_evaluator.h lines 38-52): an input pool and an
output signal. -/
structure SingleCutE where
  inputs : List Nat
  output : Nat
deriving DecidableEq

/-- `DoubleCut` (global_merger.h lines 38-50).  The C++ default value is
invalid (`valid()` checks the outputs against the null `SigBit()`); the
embedding models `findBestDoubleCut`'s result as an `Option DoubleCutE`,
`none` standing for the invalid `DoubleCut{}`. -/
structure DoubleCutE where
  inputs : List Nat
  output1 : Nat
  output2 : Nat
  selected_i5 : Nat
deriving DecidableEq

/-- `CandidatePair` (global_merger.h lines 200-210).  The
`z5_to_z_input_map` member is computed by `checkInputCompatibility` but
never read by `verifyTruthTableConstraint`, so the embedding keeps only
the don't-care index list.  The float `structural_score` is abstracted
as an `Int`. -/
structure CandE where
  z5_output : Nat
  z5_inputs : List Nat
  selected_i5 : Nat
  z_remaining : List Nat
  score : Int
  dcIdx : List Nat
deriving DecidableEq

/-- Insertion step of a comparator sort (modelling `std::sort` with a
strict-weak-order comparator; all theorems below hold for any ordering
of equal-score elements). -/
def insBy {α : Type} (le : α → α → Bool) (x : α) : List α → List α
  | [] => [x]
  | y :: ys => if le x y then x :: y :: ys else y :: insBy le x ys

def sortBy {α : Type} (le : α → α → Bool) (l : List α) : List α :=
  l.foldr (insBy le) []

theorem mem_insBy {α : Type} (le : α → α → Bool) (x : α) (l : List α) (a : α)
    (h : a ∈ insBy le x l) : a = x ∨ a ∈ l := by
  induction l with
  | nil => simpa [insBy] using h
  | cons y ys ih =>
    unfold insBy at h
    split at h
    · simpa using h
    · rcases List.mem_cons.mp h with h' | h'
      · exact Or.inr (by simp [h'])
      · rcases ih h' with h'' | h''
        · exact Or.inl h''
        · exact Or.inr (List.mem_cons_of_mem _ h'')

theorem mem_sortBy {α : Type} (le : α → α → Bool) (l : List α) (a : α)
    (h : a ∈ sortBy le l) : a ∈ l := by
  induction l with
  | nil => simp [sortBy] at h
  | cons y ys ih =>
    rcases mem_insBy le y (sortBy le ys) a h with h' | h'
    · simp [h']
    · exact List.mem_cons_of_mem _ (ih h')

/-- `GlobalMerger::checkInputCompatibility` (global_merger.cc lines
340-416): sort both pools, require every Z5 input to occur among Z's
remaining inputs, and return the ascending list of indices of Z's sorted
remaining inputs not used by Z5 (the don't-care indices).  `none` models
the `return false` of line 375. -/
def checkInputCompatibility (z_remaining z5_inputs : List Nat) : Option (List Nat) :=
  let zv := sortSigs z_remaining
  let z5v := sortSigs z5_inputs
  if z5v.all (fun s => zv.contains s) then
    let used := z5v.map (fun s => zv.findIdx (fun y => y == s))
    some ((List.range zv.length).filter (fun j => !(used.contains j)))
  else none

/-- `GlobalMerger::verifyTruthTableConstraint` (global_merger.cc lines
487-591), with the elementwise comparison loops expressed as list
equality after the size checks the C++ performs. -/
def verifyTruthTableConstraint (z_init z5_init : List Bool)
    (z_num_inputs z5_num_inputs : Nat) (z_dont_care_indices : List Nat) : Bool :=
  if z_num_inputs == 6 then
    if z_init.length != 64 then false
    else if z5_init.length != 2 ^ z5_num_inputs then false
    else
      let z_lower_half := z_init.take 32
      if z5_num_inputs < 5 then
        if !(isIndependentOfInputs z_lower_half 5 z_dont_care_indices) then false
        else
          let fixed := z_dont_care_indices.map (fun i => (i, false))
          let z_projected := projectTruthTable z_lower_half 5 fixed
          if z_projected.length != z5_init.length then false
          else z_projected == z5_init
      else
        if z_lower_half.length != z5_init.length then false
        else z_lower_half == z5_init
  else
    if z_init.length != z5_init.length then false
    else z_init == z5_init

/-- The Stage-1 candidate scan for one element of the queue
(global_merger.cc lines 618-676): the self / self-loop / size prechecks,
then the I5 selection loop over Z's best-cut inputs in pool order.  Note
that `z_remaining` is the pool-order erase of `i5` and `merged` follows
the pool insertion order of the C++. -/
def candsForOther (score : Nat → Nat → List Nat → Nat → Int) (now : Nat)
    (nowInputs : List Nat) (other : SingleCutE) : List CandE :=
  if other.output == now then []
  else if other.inputs.contains other.output then []
  else if other.inputs.length > 5 then []
  else
    nowInputs.filterMap fun i5 =>
      if other.inputs.contains i5 then none
      else
        let zrem := nowInputs.filter (fun y => !(y == i5))
        match checkInputCompatibility zrem other.inputs with
        | none => none
        | some dc =>
          let merged := poolInsert i5 (poolUnion zrem other.inputs)
          if merged.length > 6 then none
          else
            some { z5_output := other.output, z5_inputs := other.inputs,
                   selected_i5 := i5, z_remaining := zrem,
                   score := score now other.output merged i5, dcIdx := dc }

/-- Stage 1 of `findBestDoubleCut`: scan the queue in iteration order
(global_merger.cc lines 616-676). -/
def stage1Candidates (score : Nat → Nat → List Nat → Nat → Int) (now : Nat)
    (nowInputs : List Nat) (Q : List SingleCutE) : List CandE :=
  Q.foldr (fun o acc => candsForOther score now nowInputs o ++ acc) []

/-- Stage 2 of `findBestDoubleCut` (global_merger.cc lines 698-762):
for each surviving candidate compute the Z truth table over the
pool-order remaining inputs followed by I5, the Z5 truth table over the
pool-order Z5 inputs, verify the constraint, and return the first
passing candidate as a DoubleCut.  A failing truth-table computation
propagates as an error (the C++ `log_error` aborts the run). -/
def stage2Verify (sem : Nat → (Nat → Bool) → Option Bool) (now : Nat) :
    List CandE → Except Unit (Option DoubleCutE)
  | [] => .ok none
  | c :: cs =>
    match computeLUTInitE (sem now) (c.z_remaining ++ [c.selected_i5]) with
    | .error e => .error e
    | .ok z_init =>
      match computeLUTInitE (sem c.z5_output) c.z5_inputs with
      | .error e => .error e
      | .ok z5_init =>
        if verifyTruthTableConstraint z_init z5_init
            (c.z_remaining ++ [c.selected_i5]).length c.z5_inputs.length c.dcIdx then
          .ok (some { inputs := poolInsert c.selected_i5 (poolUnion c.z_remaining c.z5_inputs),
                      output1 := now, output2 := c.z5_output,
                      selected_i5 := c.selected_i5 })
        else stage2Verify sem now cs

/-- The static inputs of `runGlobalMapping` for one module, with the
collaborating components abstracted at their interfaces:

* `combOut` — the pool `all_comb_outputs` of combinational-gate outputs
  (global_merger.cc lines 41-49);
* `poDriverOuts` — the sequence of mappable-driver outputs found from
  the primary outputs in step 3 (lines 67-93);
* `bestCut` — `CutManager::getBestCut`, reduced to the input pool (its
  output field always equals the queried signal);
* `combDriven x` — true iff `getDriver(x)` is a combinational gate whose
  `getCellOutput` is `x` itself (the step-6 guard, lines 175-185);
* `sem` — the cone function of each signal for truth-table simulation;
* `score` — `computeStructuralScore`, abstracted (see the file header);
* `enq` — insertion into the comparator-ordered multiset `Q`; the
  embedding only assumes it adds one element and keeps the others. -/
structure MergerInstance where
  combOut : List Nat
  poDriverOuts : List Nat
  bestCut : Nat → List Nat
  combDriven : Nat → Bool
  sem : Nat → (Nat → Bool) → Option Bool
  score : Nat → Nat → List Nat → Nat → Int
  enableDouble : Bool
  enq : SingleCutE → List SingleCutE → List SingleCutE
  enq_len : ∀ c q, (enq c q).length = q.length + 1
  enq_mem : ∀ c q x, x ∈ q → x ∈ enq c q
  enq_self : ∀ c q, c ∈ enq c q
  driven_comb : ∀ x, combDriven x = true → x ∈ combOut

/-- `CutManager::getBestCut` as seen by the merger (cut_manager.cc lines
75-86): the best cut of `s` always has output `s`. -/
def bestCutE (inst : MergerInstance) (s : Nat) : SingleCutE :=
  { inputs := inst.bestCut s, output := s }

/-- `GlobalMerger::findBestDoubleCut` (global_merger.cc lines 602-763):
the 2..6-input precheck on Z's best cut, Stage-1 scan, sort by
structural score with the best 5 kept, then Stage-2 verification. -/
def findBestDoubleCut (inst : MergerInstance) (now : Nat) (Q : List SingleCutE) :
    Except Unit (Option DoubleCutE) :=
  let nowInputs := inst.bestCut now
  if nowInputs.length < 2 || nowInputs.length > 6 then .ok none
  else
    let cands := stage1Candidates inst.score now nowInputs Q
    if cands.isEmpty then .ok none
    else stage2Verify inst.sem now
      ((sortBy (fun a b => decide (a.score ≤ b.score)) cands).take 5)

/-- The mutable state of `runGlobalMapping`'s traversal (global_merger.cc
lines 36-38 and 146-193). -/
structure LoopState where
  Q : List SingleCutE
  visited : List Nat
  single : List (Nat × SingleCutE)
  double : List ((Nat × Nat) × DoubleCutE)

/-- Queue initialisation guard (steps 3 and 4, global_merger.cc lines
67-110): enqueue the best cut of `x` unless `x` is already visited. -/
def initEnq (inst : MergerInstance) (st : LoopState) (x : Nat) : LoopState :=
  if st.visited.contains x then st
  else { st with Q := inst.enq (bestCutE inst x) st.Q, visited := st.visited ++ [x] }

/-- One step-6 expansion (global_merger.cc lines 171-187): push the best
cut of an unvisited combinationally-driven input. -/
def expandOne (inst : MergerInstance) (st : LoopState) (x : Nat) : LoopState :=
  if st.visited.contains x then st
  else if inst.combDriven x then
    { st with Q := inst.enq (bestCutE inst x) st.Q, visited := st.visited ++ [x] }
  else st

def expandAll (inst : MergerInstance) (l : List Nat) (st : LoopState) : LoopState :=
  l.foldl (expandOne inst) st

/-- The state after a successful dual-output decision (global_merger.cc
lines 160-162): record the DoubleCut keyed (now, z5) and mark z5
visited. -/
def popDoubleState (st : LoopState) (nowCut : SingleCutE) (rest : List SingleCutE)
    (dc : DoubleCutE) : LoopState :=
  { Q := rest, visited := poolInsert dc.output2 st.visited,
    single := st.single, double := setKey (nowCut.output, dc.output2) dc st.double }

/-- The state after a single-output decision (global_merger.cc line
164): record the popped SingleCut under its output. -/
def popSingleState (st : LoopState) (nowCut : SingleCutE) (rest : List SingleCutE) :
    LoopState :=
  { Q := rest, visited := st.visited,
    single := setKey nowCut.output nowCut st.single, double := st.double }

/-- The body of one main-loop iteration after the pop (global_merger.cc
lines 146-192): record a DoubleCut keyed by (now, z5) and mark z5
visited, or record the SingleCut under now; then expand the chosen input
set. -/
def popStep (inst : MergerInstance) (st : LoopState) (nowCut : SingleCutE)
    (rest : List SingleCutE) (od : Option DoubleCutE) : LoopState :=
  match od with
  | some dc => expandAll inst dc.inputs (popDoubleState st nowCut rest dc)
  | none => expandAll inst nowCut.inputs (popSingleState st nowCut rest)

/-- The main loop of `runGlobalMapping` (global_merger.cc lines 114-193).
The fuel argument only bounds the number of iterations; `runGlobalMapping`
passes one more than the loop measure, which never runs out (see
`mainLoopF_ne_none`), and exhaustion is reported as `.ok none`. -/
def mainLoopF (inst : MergerInstance) : Nat → LoopState → Except Unit (Option LoopState)
  | 0, _ => .ok none
  | fuel + 1, st =>
    match st.Q with
    | [] => .ok (some st)
    | nowCut :: rest =>
      match (if inst.enableDouble then findBestDoubleCut inst nowCut.output rest
             else .ok none) with
      | .error e => .error e
      | .ok od => mainLoopF inst fuel (popStep inst st nowCut rest od)

/-- Steps 1-4 of `runGlobalMapping` (global_merger.cc lines 40-110):
queue the mappable drivers of the primary outputs, then every remaining
combinational output. -/
def initState (inst : MergerInstance) : LoopState :=
  let st0 : LoopState := { Q := [], visited := [], single := [], double := [] }
  let st1 := inst.poDriverOuts.foldl (initEnq inst) st0
  inst.combOut.foldl (initEnq inst) st1

/-- The sweep loop of step 7 over a list of combinational outputs. -/
def step7Go (inst : MergerInstance) : List Nat → LoopState → LoopState
  | [], st => st
  | c :: t, st =>
    if st.visited.contains c then step7Go inst t st
    else step7Go inst t
      { st with single := setKey c (bestCutE inst c) st.single,
                visited := st.visited ++ [c] }

/-- Step 7 of `runGlobalMapping` (global_merger.cc lines 195-210):
install the best cut of every still-unvisited combinational output as a
SingleCut. -/
def step7 (inst : MergerInstance) (st : LoopState) : LoopState :=
  step7Go inst inst.combOut st

/-- The loop measure: queue length plus the number of not-yet-visited
combinational outputs.  Every iteration pops one element and each
insertion marks a previously unvisited combinational output visited, so
the measure strictly decreases. -/
def mergerMeasure (inst : MergerInstance) (st : LoopState) : Nat :=
  st.Q.length + (inst.combOut.filter (fun c => !(st.visited.contains c))).length

/-- The two maps produced by `runGlobalMapping`. -/
structure MergerResultE where
  single : List (Nat × SingleCutE)
  double : List ((Nat × Nat) × DoubleCutE)
deriving DecidableEq

/-- `GlobalMerger::runGlobalMapping` (global_merger.cc lines 30-227). -/
def runGlobalMapping (inst : MergerInstance) : Except Unit (Option MergerResultE) :=
  let st := initState inst
  match mainLoopF inst (mergerMeasure inst st + 1) st with
  | .error e => .error e
  | .ok none => .ok none
  | .ok (some stF) =>
    let stG := step7 inst stF
    .ok (some { single := stG.single, double := stG.double })

def singleKeys (l : List (Nat × SingleCutE)) : List Nat :=
  l.map Prod.fst

def doubleOuts (l : List ((Nat × Nat) × DoubleCutE)) : List Nat :=
  l.foldr (fun e acc => e.2.output1 :: e.2.output2 :: acc) []

/-! ### A concrete module exercising the dual-output path (used for
claims C1 and C2) -/

/-- Multiset insertion instantiated as append: a legal comparator order
in which elements pop in arrival order. -/
def enqAppend : SingleCutE → List SingleCutE → List SingleCutE :=
  fun c q => q ++ [c]

/-- Best cuts of the two combinational outputs 10 (Z candidate) and 11
(Z5 candidate).  The pool insertion order of cut 10 is [2,1,3,4,5,6] —
NOT sorted, which pool iteration order does not guarantee (compare the
comment at global_merger.cc line 354). -/
def bestCutC2 : Nat → List Nat := fun s =>
  if s = 10 then [2, 1, 3, 4, 5, 6] else if s = 11 then [1, 2, 3, 4, 5] else []

/-- Cone semantics: signal 10 computes the value of signal 1, signal 11
computes the value of signal 2 (both realisable as single-gate cones
whose remaining cut inputs are don't-cares of the cone, e.g. buffers). -/
def semC2 : Nat → (Nat → Bool) → Option Bool := fun s g =>
  if s = 10 then some (g 1) else if s = 11 then some (g 2) else none

def instC2 : MergerInstance :=
  { combOut := [10, 11], poDriverOuts := [], bestCut := bestCutC2,
    combDriven := fun _ => false, sem := semC2, score := fun _ _ _ _ => 0,
    enableDouble := true, enq := enqAppend,
    enq_len := by intro c q; simp [enqAppend],
    enq_mem := by intro c q x hx; simp [enqAppend, hx],
    enq_self := by intro c q; simp [enqAppend],
    driven_comb := by intro x hx; simp at hx }

/-- The double cut the run records: Z = 10, Z5 = 11, I5 = 6, merged
inputs in pool order. -/
def dcC2 : DoubleCutE :=
  { inputs := [2, 1, 3, 4, 5, 6], output1 := 10, output2 := 11, selected_i5 := 6 }

/-- The mapping result of `runGlobalMapping instC2`. -/
def resC2 : MergerResultE :=
  { single := [(11, { inputs := [1, 2, 3, 4, 5], output := 11 })],
    double := [((10, 11), dcC2)] }

/-! ### Invariants of the runGlobalMapping traversal -/

theorem expandOne_fields (inst : MergerInstance) (st : LoopState) (x : Nat) :
    (expandOne inst st x).single = st.single ∧ (expandOne inst st x).double = st.double := by
  unfold expandOne
  split
  · exact ⟨rfl, rfl⟩
  · split
    · exact ⟨rfl, rfl⟩
    · exact ⟨rfl, rfl⟩

theorem expandAll_fields (inst : MergerInstance) (l : List Nat) (st : LoopState) :
    (expandAll inst l st).single = st.single ∧ (expandAll inst l st).double = st.double := by
  induction l generalizing st with
  | nil => exact ⟨rfl, rfl⟩
  | cons x t ih =>
    have h1 := expandOne_fields inst st x
    have h2 := ih (expandOne inst st x)
    exact ⟨h2.1.trans h1.1, h2.2.trans h1.2⟩

/-- Key/value output agreement plus the 2..6 precheck bound for every
recorded DoubleCut. -/
def DoubleBound (inst : MergerInstance) (l : List ((Nat × Nat) × DoubleCutE)) : Prop :=
  ∀ e ∈ l, e.2.output1 = e.1.1 ∧ e.2.output2 = e.1.2 ∧
    2 ≤ (inst.bestCut e.2.output1).length ∧ (inst.bestCut e.2.output1).length ≤ 6

/-- Traversal invariant: every combinational output is single-mapped,
an output of a recorded DoubleCut, pending in the queue, or not yet
visited. -/
def Covered (inst : MergerInstance) (st : LoopState) : Prop :=
  ∀ c ∈ inst.combOut,
    c ∈ singleKeys st.single ∨ c ∈ doubleOuts st.double ∨
    (∃ sc ∈ st.Q, sc.output = c) ∨ st.visited.contains c = false
theorem setKey_self_mem {α β : Type} [DecidableEq α] (l : List (α × β)) (k : α) (v : β) :
    (k, v) ∈ setKey k v l := by
  induction l with
  | nil => simp [setKey]
  | cons hd t ih =>
    obtain ⟨k₀, v₀⟩ := hd
    by_cases hk : k₀ = k
    · simp [setKey, hk]
    · simp only [setKey, if_neg hk]
      exact List.mem_cons_of_mem _ ih

theorem mem_setKey_of_mem_ne {α β : Type} [DecidableEq α] (l : List (α × β)) (k : α) (v : β)
    (e : α × β) (he : e ∈ l) (hne : e.1 ≠ k) : e ∈ setKey k v l := by
  induction l with
  | nil => simp at he
  | cons hd t ih =>
    obtain ⟨k₀, v₀⟩ := hd
    rcases List.mem_cons.mp he with h1 | h1
    · subst h1
      by_cases hk : k₀ = k
      · exact absurd hk hne
      · simp [setKey, hk]
    · by_cases hk : k₀ = k
      · simp only [setKey, if_pos hk]
        exact List.mem_cons_of_mem _ h1
      · simp only [setKey, if_neg hk]
        exact List.mem_cons_of_mem _ (ih h1)

theorem mem_doubleOuts_iff (l : List ((Nat × Nat) × DoubleCutE)) (x : Nat) :
    x ∈ doubleOuts l ↔ ∃ e ∈ l, e.2.output1 = x ∨ e.2.output2 = x := by
  induction l with
  | nil => simp [doubleOuts]
  | cons e t ih =>
    constructor
    · intro h
      have h' : x = e.2.output1 ∨ x = e.2.output2 ∨ x ∈ doubleOuts t := by
        simpa [doubleOuts] using h
      rcases h' with h1 | h1 | h1
      · exact ⟨e, List.mem_cons_self e t, Or.inl h1.symm⟩
      · exact ⟨e, List.mem_cons_self e t, Or.inr h1.symm⟩
      · rcases ih.mp h1 with ⟨e', he', ho⟩
        exact ⟨e', List.mem_cons_of_mem _ he', ho⟩
    · rintro ⟨e', he', ho⟩
      have h' : x = e.2.output1 ∨ x = e.2.output2 ∨ x ∈ doubleOuts t := by
        rcases List.mem_cons.mp he' with h1 | h1
        · subst h1
          rcases ho with h | h
          · exact Or.inl h.symm
          · exact Or.inr (Or.inl h.symm)
        · exact Or.inr (Or.inr (ih.mpr ⟨e', h1, ho⟩))
      simpa [doubleOuts] using h'

theorem mem_doubleOuts_setKey (l : List ((Nat × Nat) × DoubleCutE))
    (k : Nat × Nat) (v : DoubleCutE)
    (hkeys : ∀ e ∈ l, e.2.output1 = e.1.1 ∧ e.2.output2 = e.1.2)
    (hv1 : v.output1 = k.1) (hv2 : v.output2 = k.2) (x : Nat)
    (hx : x ∈ doubleOuts l) : x ∈ doubleOuts (setKey k v l) := by
  rcases (mem_doubleOuts_iff l x).mp hx with ⟨e, he, ho⟩
  by_cases hek : e.1 = k
  · have hk1 := (hkeys e he).1
    have hk2 := (hkeys e he).2
    refine (mem_doubleOuts_iff _ x).mpr ⟨(k, v), setKey_self_mem l k v, ?_⟩
    rcases ho with h | h
    · exact Or.inl (by rw [hv1, ← hek, ← hk1]; exact h)
    · exact Or.inr (by rw [hv2, ← hek, ← hk2]; exact h)
  · exact (mem_doubleOuts_iff _ x).mpr ⟨e, mem_setKey_of_mem_ne l k v e he hek, ho⟩

theorem mem_doubleOuts_setKey_self (l : List ((Nat × Nat) × DoubleCutE))
    (k : Nat × Nat) (v : DoubleCutE) (x : Nat)
    (hx : v.output1 = x ∨ v.output2 = x) : x ∈ doubleOuts (setKey k v l) :=
  (mem_doubleOuts_iff _ x).mpr ⟨(k, v), setKey_self_mem l k v, hx⟩

theorem Covered_expandOne (inst : MergerInstance) (st : LoopState) (x : Nat)
    (h : Covered inst st) : Covered inst (expandOne inst st x) := by
  unfold expandOne
  split
  · exact h
  · split
    · intro c hc
      rcases h c hc with h1 | h1 | ⟨sc, hsc, hout⟩ | h1
      · exact Or.inl h1
      · exact Or.inr (Or.inl h1)
      · exact Or.inr (Or.inr (Or.inl ⟨sc, inst.enq_mem _ _ _ hsc, hout⟩))
      · by_cases hcx : c = x
        · subst hcx
          exact Or.inr (Or.inr (Or.inl ⟨bestCutE inst c, inst.enq_self _ _, rfl⟩))
        · have h' : c ∉ st.visited := by simpa using h1
          exact Or.inr (Or.inr (Or.inr (by simp [h', hcx])))
    · exact h

theorem Covered_expandAll (inst : MergerInstance) (l : List Nat) (st : LoopState)
    (h : Covered inst st) : Covered inst (expandAll inst l st) := by
  induction l generalizing st with
  | nil => exact h
  | cons x t ih => exact ih (expandOne inst st x) (Covered_expandOne inst st x h)

theorem Covered_initEnq (inst : MergerInstance) (st : LoopState) (x : Nat)
    (h : Covered inst st) : Covered inst (initEnq inst st x) := by
  unfold initEnq
  split
  · exact h
  · intro c hc
    rcases h c hc with h1 | h1 | ⟨sc, hsc, hout⟩ | h1
    · exact Or.inl h1
    · exact Or.inr (Or.inl h1)
    · exact Or.inr (Or.inr (Or.inl ⟨sc, inst.enq_mem _ _ _ hsc, hout⟩))
    · by_cases hcx : c = x
      · subst hcx
        exact Or.inr (Or.inr (Or.inl ⟨bestCutE inst c, inst.enq_self _ _, rfl⟩))
      · have h' : c ∉ st.visited := by simpa using h1
        exact Or.inr (Or.inr (Or.inr (by simp [h', hcx])))

theorem Covered_initFold (inst : MergerInstance) (l : List Nat) (st : LoopState)
    (h : Covered inst st) : Covered inst (l.foldl (initEnq inst) st) := by
  induction l generalizing st with
  | nil => exact h
  | cons x t ih => exact ih (initEnq inst st x) (Covered_initEnq inst st x h)

theorem Covered_initState (inst : MergerInstance) : Covered inst (initState inst) := by
  unfold initState
  refine Covered_initFold inst _ _ (Covered_initFold inst _ _ ?_)
  intro c hc
  exact Or.inr (Or.inr (Or.inr rfl))

theorem initEnq_fields (inst : MergerInstance) (st : LoopState) (x : Nat) :
    (initEnq inst st x).single = st.single ∧ (initEnq inst st x).double = st.double := by
  unfold initEnq
  split
  · exact ⟨rfl, rfl⟩
  · exact ⟨rfl, rfl⟩

theorem initFold_fields (inst : MergerInstance) (l : List Nat) (st : LoopState) :
    (l.foldl (initEnq inst) st).single = st.single ∧
    (l.foldl (initEnq inst) st).double = st.double := by
  induction l generalizing st with
  | nil => exact ⟨rfl, rfl⟩
  | cons x t ih =>
    have h1 := initEnq_fields inst st x
    have h2 := ih (initEnq inst st x)
    exact ⟨h2.1.trans h1.1, h2.2.trans h1.2⟩

theorem initState_maps (inst : MergerInstance) :
    (initState inst).single = [] ∧ (initState inst).double = [] := by
  unfold initState
  have h1 := initFold_fields inst inst.poDriverOuts
    { Q := [], visited := [], single := [], double := [] }
  have h2 := initFold_fields inst inst.combOut
    (inst.poDriverOuts.foldl (initEnq inst) { Q := [], visited := [], single := [], double := [] })
  exact ⟨h2.1.trans h1.1, h2.2.trans h1.2⟩

theorem stage2Verify_some (sem : Nat → (Nat → Bool) → Option Bool) (now : Nat)
    (l : List CandE) (dc : DoubleCutE)
    (h : stage2Verify sem now l = Except.ok (some dc)) : dc.output1 = now := by
  induction l with
  | nil => simp [stage2Verify] at h
  | cons c cs ih =>
    unfold stage2Verify at h
    cases h1 : computeLUTInitE (sem now) (c.z_remaining ++ [c.selected_i5]) with
    | error e =>
      rw [h1] at h
      simp at h
    | ok z_init =>
      rw [h1] at h
      cases h2 : computeLUTInitE (sem c.z5_output) c.z5_inputs with
      | error e =>
        rw [h2] at h
        simp at h
      | ok z5_init =>
        rw [h2] at h
        simp only at h
        split at h
        · cases h
          rfl
        · exact ih h

theorem findBestDoubleCut_some (inst : MergerInstance) (now : Nat) (Q : List SingleCutE)
    (dc : DoubleCutE) (h : findBestDoubleCut inst now Q = Except.ok (some dc)) :
    dc.output1 = now ∧ 2 ≤ (inst.bestCut now).length ∧ (inst.bestCut now).length ≤ 6 := by
  unfold findBestDoubleCut at h
  simp only at h
  split at h
  · simp at h
  · rename_i hsz
    split at h
    · simp at h
    · have hb : ¬((inst.bestCut now).length < 2 ∨ (inst.bestCut now).length > 6) := by
        simpa using hsz
      push_neg at hb
      exact ⟨stage2Verify_some _ _ _ _ h, by omega, by omega⟩

theorem popStep_inv (inst : MergerInstance) (st : LoopState) (nowCut : SingleCutE)
    (rest : List SingleCutE) (od : Option DoubleCutE) (hQ : st.Q = nowCut :: rest)
    (hcov : Covered inst st) (hdb : DoubleBound inst st.double)
    (hod : ∀ dc, od = some dc → dc.output1 = nowCut.output ∧
      2 ≤ (inst.bestCut nowCut.output).length ∧ (inst.bestCut nowCut.output).length ≤ 6) :
    Covered inst (popStep inst st nowCut rest od) ∧
    DoubleBound inst (popStep inst st nowCut rest od).double := by
  cases od with
  | none =>
    have hcov' : Covered inst (popSingleState st nowCut rest) := by
      intro c hc
      rcases hcov c hc with h | h | ⟨sc, hsc, hout⟩ | h
      · exact Or.inl (mem_keys_setKey_of_mem _ _ _ _ h)
      · exact Or.inr (Or.inl h)
      · rw [hQ] at hsc
        rcases List.mem_cons.mp hsc with h1 | h1
        · subst h1
          exact Or.inl (hout ▸ self_mem_keys_setKey _ _ _)
        · exact Or.inr (Or.inr (Or.inl ⟨sc, h1, hout⟩))
      · exact Or.inr (Or.inr (Or.inr h))
    refine ⟨Covered_expandAll inst _ _ hcov', ?_⟩
    rw [show popStep inst st nowCut rest none
        = expandAll inst nowCut.inputs (popSingleState st nowCut rest) from rfl,
      (expandAll_fields inst _ _).2]
    exact hdb
  | some dc =>
    have hfacts := hod dc rfl
    have hkeys : ∀ e ∈ st.double, e.2.output1 = e.1.1 ∧ e.2.output2 = e.1.2 :=
      fun e he => ⟨(hdb e he).1, (hdb e he).2.1⟩
    have hcov' : Covered inst (popDoubleState st nowCut rest dc) := by
      intro c hc
      rcases hcov c hc with h | h | ⟨sc, hsc, hout⟩ | h
      · exact Or.inl h
      · exact Or.inr (Or.inl (mem_doubleOuts_setKey _ _ _ hkeys hfacts.1 rfl c h))
      · rw [hQ] at hsc
        rcases List.mem_cons.mp hsc with h1 | h1
        · subst h1
          exact Or.inr (Or.inl
            (mem_doubleOuts_setKey_self _ _ _ _ (Or.inl (hfacts.1.trans hout))))
        · exact Or.inr (Or.inr (Or.inl ⟨sc, h1, hout⟩))
      · by_cases hc2 : c = dc.output2
        · exact Or.inr (Or.inl (mem_doubleOuts_setKey_self _ _ _ _ (Or.inr hc2.symm)))
        · refine Or.inr (Or.inr (Or.inr ?_))
          have h' : c ∉ st.visited := by simpa using h
          show (poolInsert dc.output2 st.visited).contains c = false
          unfold poolInsert
          split
          · simpa using h'
          · simp [h', hc2]
    have hdb' : DoubleBound inst (popDoubleState st nowCut rest dc).double := by
      intro e he
      rcases mem_setKey _ _ _ e he with h1 | h1
      · subst h1
        exact ⟨hfacts.1, rfl, hfacts.1 ▸ hfacts.2.1, hfacts.1 ▸ hfacts.2.2⟩
      · exact hdb e h1
    refine ⟨Covered_expandAll inst _ _ hcov', ?_⟩
    rw [show popStep inst st nowCut rest (some dc)
        = expandAll inst dc.inputs (popDoubleState st nowCut rest dc) from rfl,
      (expandAll_fields inst _ _).2]
    exact hdb'

theorem mainLoopF_nil (inst : MergerInstance) (n : Nat) (st : LoopState)
    (h : st.Q = []) : mainLoopF inst (n + 1) st = Except.ok (some st) := by
  unfold mainLoopF
  rw [h]

theorem mainLoopF_cons_error (inst : MergerInstance) (n : Nat) (st : LoopState)
    (nowCut : SingleCutE) (rest : List SingleCutE) (e : Unit) (h : st.Q = nowCut :: rest)
    (hfd : (if inst.enableDouble then findBestDoubleCut inst nowCut.output rest
            else Except.ok none) = Except.error e) :
    mainLoopF inst (n + 1) st = Except.error e := by
  unfold mainLoopF
  rw [h]
  show (match (if inst.enableDouble then findBestDoubleCut inst nowCut.output rest
         else Except.ok none) with
        | Except.error e => Except.error e
        | Except.ok od => mainLoopF inst n (popStep inst st nowCut rest od)) = Except.error e
  rw [hfd]

theorem mainLoopF_cons_ok (inst : MergerInstance) (n : Nat) (st : LoopState)
    (nowCut : SingleCutE) (rest : List SingleCutE) (od : Option DoubleCutE)
    (h : st.Q = nowCut :: rest)
    (hfd : (if inst.enableDouble then findBestDoubleCut inst nowCut.output rest
            else Except.ok none) = Except.ok od) :
    mainLoopF inst (n + 1) st = mainLoopF inst n (popStep inst st nowCut rest od) := by
  conv_lhs => unfold mainLoopF
  rw [h]
  show (match (if inst.enableDouble then findBestDoubleCut inst nowCut.output rest
         else Except.ok none) with
        | Except.error e => Except.error e
        | Except.ok od => mainLoopF inst n (popStep inst st nowCut rest od))
      = mainLoopF inst n (popStep inst st nowCut rest od)
  rw [hfd]

theorem mainLoopF_inv (inst : MergerInstance) :
    ∀ (fuel : Nat) (st stF : LoopState), Covered inst st → DoubleBound inst st.double →
    mainLoopF inst fuel st = Except.ok (some stF) →
    Covered inst stF ∧ DoubleBound inst stF.double ∧ stF.Q = [] := by
  intro fuel
  induction fuel with
  | zero =>
    intro st stF _ _ h
    simp [mainLoopF] at h
  | succ n ih =>
    intro st stF hcov hdb h
    cases hQ : st.Q with
    | nil =>
      rw [mainLoopF_nil inst n st hQ] at h
      simp only [Except.ok.injEq, Option.some.injEq] at h
      subst h
      exact ⟨hcov, hdb, hQ⟩
    | cons nowCut rest =>
      cases hfd : (if inst.enableDouble then findBestDoubleCut inst nowCut.output rest
                   else Except.ok none) with
      | error e =>
        rw [mainLoopF_cons_error inst n st nowCut rest e hQ hfd] at h
        simp at h
      | ok od =>
        rw [mainLoopF_cons_ok inst n st nowCut rest od hQ hfd] at h
        have hod : ∀ dc, od = some dc → dc.output1 = nowCut.output ∧
            2 ≤ (inst.bestCut nowCut.output).length ∧
            (inst.bestCut nowCut.output).length ≤ 6 := by
          intro dc hdc
          subst hdc
          by_cases he : inst.enableDouble
          · rw [if_pos he] at hfd
            exact findBestDoubleCut_some inst nowCut.output rest dc hfd
          · rw [if_neg he] at hfd
            simp at hfd
        have hinv := popStep_inv inst st nowCut rest od hQ hcov hdb hod
        exact ih (popStep inst st nowCut rest od) stF hinv.1 hinv.2 h

theorem step7Go_mono (inst : MergerInstance) :
    ∀ (l : List Nat) (st : LoopState),
    (∀ x, x ∈ singleKeys st.single → x ∈ singleKeys (step7Go inst l st).single) ∧
    (step7Go inst l st).double = st.double := by
  intro l
  induction l with
  | nil => exact fun st => ⟨fun x h => h, rfl⟩
  | cons a t ih =>
    intro st
    unfold step7Go
    split
    · exact ih st
    · constructor
      · intro x hx
        exact (ih _).1 x (mem_keys_setKey_of_mem _ _ _ _ hx)
      · exact (ih _).2

theorem step7Go_covers (inst : MergerInstance) :
    ∀ (l : List Nat) (st : LoopState),
    (∀ c ∈ l, c ∈ singleKeys st.single ∨ c ∈ doubleOuts st.double ∨
      st.visited.contains c = false) →
    ∀ c ∈ l, c ∈ singleKeys (step7Go inst l st).single ∨
      c ∈ doubleOuts (step7Go inst l st).double := by
  intro l
  induction l with
  | nil =>
    intro st _ c hc
    simp at hc
  | cons a t ih =>
    intro st hpre c hc
    unfold step7Go
    split
    · rename_i hvis
      rcases List.mem_cons.mp hc with h1 | h1
      · subst h1
        rcases hpre c (List.mem_cons_self c t) with h | h | h
        · exact Or.inl ((step7Go_mono inst t st).1 c h)
        · exact Or.inr ((step7Go_mono inst t st).2.symm ▸ h)
        · rw [hvis] at h
          cases h
      · exact ih st (fun c' hc' => hpre c' (List.mem_cons_of_mem _ hc')) c h1
    · rename_i hvis
      rcases List.mem_cons.mp hc with h1 | h1
      · subst h1
        exact Or.inl ((step7Go_mono inst t _).1 c (self_mem_keys_setKey _ _ _))
      · refine ih _ ?_ c h1
        intro c' hc'
        rcases hpre c' (List.mem_cons_of_mem _ hc') with h | h | h
        · exact Or.inl (mem_keys_setKey_of_mem _ _ _ _ h)
        · exact Or.inr (Or.inl h)
        · by_cases hca : c' = a
          · subst hca
            exact Or.inl (self_mem_keys_setKey _ _ _)
          · have h' : c' ∉ st.visited := by simpa using h
            exact Or.inr (Or.inr (by simp [h', hca]))

/-- Claim C3: after runGlobalMapping returns, every combinational cell
output c is covered: c is a key of single_mappings or appears as output1
or output2 of some double_mappings entry.  (This is stronger than the
claim, which also allows c to be unreachable from every primary output;
steps 4 and 7 in fact cover every combinational output.) -/
theorem runGlobalMapping_coverage (inst : MergerInstance) (res : MergerResultE)
    (h : runGlobalMapping inst = Except.ok (some res)) :
    ∀ c ∈ inst.combOut, c ∈ singleKeys res.single ∨ c ∈ doubleOuts res.double := by
  have h' : (match mainLoopF inst (mergerMeasure inst (initState inst) + 1) (initState inst) with
      | Except.error e => Except.error e
      | Except.ok none => Except.ok none
      | Except.ok (some stF) =>
        Except.ok (some ({ single := (step7 inst stF).single,
                           double := (step7 inst stF).double } : MergerResultE)))
      = Except.ok (some res) := h
  clear h
  cases hml : mainLoopF inst (mergerMeasure inst (initState inst) + 1) (initState inst) with
  | error e =>
    rw [hml] at h'
    simp at h'
  | ok o =>
    cases o with
    | none =>
      rw [hml] at h'
      simp at h'
    | some stF =>
      rw [hml] at h'
      simp only [Except.ok.injEq, Option.some.injEq] at h'
      subst h'
      have hdb0 : DoubleBound inst (initState inst).double := by
        rw [(initState_maps inst).2]
        intro e he
        simp at he
      have hinv := mainLoopF_inv inst _ _ _ (Covered_initState inst) hdb0 hml
      intro c hc
      have hpre : ∀ c' ∈ inst.combOut, c' ∈ singleKeys stF.single ∨
          c' ∈ doubleOuts stF.double ∨ stF.visited.contains c' = false := by
        intro c' hc'
        rcases hinv.1 c' hc' with h1 | h1 | ⟨sc, hsc, _⟩ | h1
        · exact Or.inl h1
        · exact Or.inr (Or.inl h1)
        · rw [hinv.2.2] at hsc
          simp at hsc
        · exact Or.inr (Or.inr h1)
      exact step7Go_covers inst inst.combOut stF hpre c hc

/-- Witness for C3 at the concrete instance instC2: both combinational
outputs are covered. -/
theorem runGlobalMapping_coverage_witness :
    (10 ∈ singleKeys resC2.single ∨ 10 ∈ doubleOuts resC2.double) ∧
    (11 ∈ singleKeys resC2.single ∨ 11 ∈ doubleOuts resC2.double) :=
  ⟨runGlobalMapping_coverage instC2 resC2 (by rfl) 10 (by decide),
   runGlobalMapping_coverage instC2 resC2 (by rfl) 11 (by decide)⟩

theorem length_filter_mono (l : List Nat) (p q : Nat → Bool)
    (h : ∀ c, p c = true → q c = true) :
    (l.filter p).length ≤ (l.filter q).length := by
  induction l with
  | nil => simp
  | cons a t ih =>
    by_cases hp : p a = true
    · rw [List.filter_cons_of_pos hp, List.filter_cons_of_pos (h a hp)]
      simpa using ih
    · rw [List.filter_cons_of_neg (by simpa using hp)]
      by_cases hq : q a = true
      · rw [List.filter_cons_of_pos hq]
        exact ih.trans (by simp)
      · rw [List.filter_cons_of_neg (by simpa using hq)]
        exact ih

theorem filter_and_length_le (l : List Nat) (p q : Nat → Bool) :
    (l.filter (fun c => p c && q c)).length ≤ (l.filter p).length :=
  length_filter_mono l _ p (fun c hc => by
    simp only [Bool.and_eq_true] at hc
    exact hc.1)

theorem filter_and_length_lt (l : List Nat) (p : Nat → Bool) (x : Nat)
    (hx : x ∈ l) (hpx : p x = true) :
    (l.filter (fun c => p c && decide (c ≠ x))).length < (l.filter p).length := by
  induction l with
  | nil => simp at hx
  | cons a t ih =>
    by_cases hax : a = x
    · subst hax
      rw [List.filter_cons_of_pos hpx,
        List.filter_cons_of_neg (by simp)]
      exact Nat.lt_succ_of_le (filter_and_length_le t p _)
    · cases hpa : p a with
      | true =>
        rw [List.filter_cons_of_pos (by simp [hpa, hax]),
          List.filter_cons_of_pos hpa]
        have hxt : x ∈ t := by
          rcases List.mem_cons.mp hx with h1 | h1
          · exact absurd h1.symm hax
          · exact h1
        simpa using ih hxt
      | false =>
        rw [List.filter_cons_of_neg (by simp [hpa]),
          List.filter_cons_of_neg (by simp [hpa])]
        have hxt : x ∈ t := by
          rcases List.mem_cons.mp hx with h1 | h1
          · exact absurd h1.symm hax
          · exact h1
        exact ih hxt

theorem visited_snoc_filter_eq (visited : List Nat) (x : Nat) :
    (fun c => !((visited ++ [x]).contains c)) =
    (fun c => (!(visited.contains c)) && decide (c ≠ x)) := by
  funext c
  by_cases h1 : c ∈ visited <;> by_cases h2 : c = x <;> simp [h1, h2]

theorem visited_snoc_filter_lt (combOut visited : List Nat) (x : Nat)
    (hx : x ∈ combOut) (hnv : x ∉ visited) :
    (combOut.filter (fun c => !((visited ++ [x]).contains c))).length <
    (combOut.filter (fun c => !(visited.contains c))).length := by
  rw [visited_snoc_filter_eq]
  have hlt := filter_and_length_lt combOut (fun c => !(visited.contains c)) x hx
    (by simp [hnv])
  exact hlt

theorem measure_expandOne_le (inst : MergerInstance) (st : LoopState) (x : Nat) :
    mergerMeasure inst (expandOne inst st x) ≤ mergerMeasure inst st := by
  unfold expandOne
  split
  · exact le_refl _
  · split
    · rename_i hnv hdrv
      have hxc : x ∈ inst.combOut := inst.driven_comb x hdrv
      have hnv' : x ∉ st.visited := by simpa using hnv
      unfold mergerMeasure
      simp only [inst.enq_len]
      have hlt := visited_snoc_filter_lt inst.combOut st.visited x hxc hnv'
      omega
    · exact le_refl _

theorem measure_expandAll_le (inst : MergerInstance) (l : List Nat) (st : LoopState) :
    mergerMeasure inst (expandAll inst l st) ≤ mergerMeasure inst st := by
  induction l generalizing st with
  | nil => exact le_refl _
  | cons a t ih =>
    exact (ih (expandOne inst st a)).trans (measure_expandOne_le inst st a)

theorem visited_poolInsert_filter_le (combOut visited : List Nat) (y : Nat) :
    (combOut.filter (fun c => !((poolInsert y visited).contains c))).length ≤
    (combOut.filter (fun c => !(visited.contains c))).length := by
  unfold poolInsert
  split
  · exact le_refl _
  · rw [visited_snoc_filter_eq]
    exact filter_and_length_le combOut _ _

theorem measure_popStep_lt (inst : MergerInstance) (st : LoopState)
    (nowCut : SingleCutE) (rest : List SingleCutE) (od : Option DoubleCutE)
    (hQ : st.Q = nowCut :: rest) :
    mergerMeasure inst (popStep inst st nowCut rest od) < mergerMeasure inst st := by
  have hlen : st.Q.length = rest.length + 1 := by rw [hQ]; rfl
  cases od with
  | none =>
    have h1 := measure_expandAll_le inst nowCut.inputs (popSingleState st nowCut rest)
    have h2 : mergerMeasure inst (popSingleState st nowCut rest) + 1 = mergerMeasure inst st := by
      unfold mergerMeasure popSingleState
      simp only
      omega
    calc mergerMeasure inst (popStep inst st nowCut rest none)
        ≤ mergerMeasure inst (popSingleState st nowCut rest) := h1
      _ < mergerMeasure inst st := by omega
  | some dc =>
    have h1 := measure_expandAll_le inst dc.inputs (popDoubleState st nowCut rest dc)
    have h2 : mergerMeasure inst (popDoubleState st nowCut rest dc) < mergerMeasure inst st := by
      unfold mergerMeasure popDoubleState
      simp only
      have h3 := visited_poolInsert_filter_le inst.combOut st.visited dc.output2
      omega
    exact lt_of_le_of_lt h1 h2

theorem mainLoopF_ne_none (inst : MergerInstance) :
    ∀ (fuel : Nat) (st : LoopState), mergerMeasure inst st < fuel →
    mainLoopF inst fuel st ≠ Except.ok none := by
  intro fuel
  induction fuel with
  | zero =>
    intro st hm
    omega
  | succ n ih =>
    intro st hm h
    cases hQ : st.Q with
    | nil =>
      rw [mainLoopF_nil inst n st hQ] at h
      simp at h
    | cons nowCut rest =>
      cases hfd : (if inst.enableDouble then findBestDoubleCut inst nowCut.output rest
                   else Except.ok none) with
      | error e =>
        rw [mainLoopF_cons_error inst n st nowCut rest e hQ hfd] at h
        simp at h
      | ok od =>
        rw [mainLoopF_cons_ok inst n st nowCut rest od hQ hfd] at h
        have hlt := measure_popStep_lt inst st nowCut rest od hQ
        exact ih (popStep inst st nowCut rest od) (by omega) h

theorem runGlobalMapping_ne_none (inst : MergerInstance) :
    runGlobalMapping inst ≠ Except.ok none := by
  intro h
  have h' : (match mainLoopF inst (mergerMeasure inst (initState inst) + 1) (initState inst) with
      | Except.error e => Except.error e
      | Except.ok none => Except.ok none
      | Except.ok (some stF) =>
        Except.ok (some ({ single := (step7 inst stF).single,
                           double := (step7 inst stF).double } : MergerResultE)))
      = Except.ok none := h
  clear h
  cases hml : mainLoopF inst (mergerMeasure inst (initState inst) + 1) (initState inst) with
  | error e =>
    rw [hml] at h'
    simp at h'
  | ok o =>
    cases o with
    | none => exact mainLoopF_ne_none inst _ _ (Nat.lt_succ_self _) hml
    | some stF =>
      rw [hml] at h'
      simp at h'

/-- Claim C10: if bestCut(now) has fewer than 2 or more than 6 inputs,
findBestDoubleCut returns the invalid DoubleCut (modelled as none) and
the main loop then maps now as a single-output LUT; consequently every
DoubleCut recorded by runGlobalMapping has a Z output whose best cut had
between 2 and 6 inputs. -/
theorem findBestDoubleCut_size_invariant :
    (∀ (inst : MergerInstance) (now : Nat) (Q : List SingleCutE),
      ((inst.bestCut now).length < 2 ∨ 6 < (inst.bestCut now).length) →
      findBestDoubleCut inst now Q = Except.ok none) ∧
    (∀ (inst : MergerInstance) (res : MergerResultE),
      runGlobalMapping inst = Except.ok (some res) →
      ∀ e ∈ res.double, 2 ≤ (inst.bestCut e.2.output1).length ∧
        (inst.bestCut e.2.output1).length ≤ 6) := by
  constructor
  · intro inst now Q hsz
    have hcond : (decide ((inst.bestCut now).length < 2) ||
        decide ((inst.bestCut now).length > 6)) = true := by
      rcases hsz with h1 | h1 <;> simp [h1]
    unfold findBestDoubleCut
    dsimp only
    simp [hcond]
  · intro inst res h
    have h' : (match mainLoopF inst (mergerMeasure inst (initState inst) + 1) (initState inst) with
        | Except.error e => Except.error e
        | Except.ok none => Except.ok none
        | Except.ok (some stF) =>
          Except.ok (some ({ single := (step7 inst stF).single,
                             double := (step7 inst stF).double } : MergerResultE)))
        = Except.ok (some res) := h
    clear h
    cases hml : mainLoopF inst (mergerMeasure inst (initState inst) + 1) (initState inst) with
    | error e =>
      rw [hml] at h'
      simp at h'
    | ok o =>
      cases o with
      | none =>
        rw [hml] at h'
        simp at h'
      | some stF =>
        rw [hml] at h'
        simp only [Except.ok.injEq, Option.some.injEq] at h'
        subst h'
        have hdb0 : DoubleBound inst (initState inst).double := by
          rw [(initState_maps inst).2]
          intro e he
          simp at he
        have hinv := mainLoopF_inv inst _ _ _ (Covered_initState inst) hdb0 hml
        intro e he
        have he' : e ∈ stF.double := by
          have hd : (step7 inst stF).double = stF.double := (step7Go_mono inst inst.combOut stF).2
          rw [show ({ single := (step7 inst stF).single,
                      double := (step7 inst stF).double } : MergerResultE).double
              = (step7 inst stF).double from rfl, hd] at he
          exact he
        exact ⟨(hinv.2.1 e he').2.2.1, (hinv.2.1 e he').2.2.2⟩

/-- Witness for C10: the degenerate best cut of signal 99 (empty) makes
findBestDoubleCut return the invalid DoubleCut, and the DoubleCut that
the concrete run instC2 records has a 6-input Z best cut. -/
theorem findBestDoubleCut_size_invariant_witness :
    findBestDoubleCut instC2 99 [] = Except.ok none ∧
    (2 ≤ (instC2.bestCut 10).length ∧ (instC2.bestCut 10).length ≤ 6) :=
  ⟨findBestDoubleCut_size_invariant.1 instC2 99 [] (Or.inl (by decide)),
   findBestDoubleCut_size_invariant.2 instC2 resC2 (by rfl) ((10, 11), dcC2) (by decide)⟩

/-! ### Claim C2 -/

/-- Counterexample to claim C2: when the dual-output path is enabled,
runGlobalMapping on the concrete module instC2 fuses (Z = 10, Z5 = 11)
into a DoubleCut, but the SingleCut of 11 is still pending in the queue
(findBestDoubleCut draws its candidates from Q without removing them),
so 11 is later popped and ALSO recorded in single_mappings: signal 11 is
simultaneously a key of single_mappings and the Z5 output of a
double_mappings entry. -/
theorem single_double_overlap :
    runGlobalMapping instC2 = Except.ok (some resC2) ∧
    11 ∈ singleKeys resC2.single ∧ 11 ∈ doubleOuts resC2.double := by
  refine ⟨by rfl, by decide, by decide⟩

/-- The defensive filter of `DualOutputMapper::generateNetlist`
(dual_output_mapper.cc lines 241-253): a single mapping whose output
signal appears in a double-mapping key is skipped at emission. -/
def emittedSingles (single : List (Nat × SingleCutE))
    (double : List ((Nat × Nat) × DoubleCutE)) : List (Nat × SingleCutE) :=
  single.filter (fun p => !(double.any (fun d => d.1.1 == p.1 || d.1.2 == p.1)))

/-- Claim C2 (corrected): the two maps returned by runGlobalMapping may
overlap in their output signals (see the counterexample) — disjointness
holds only for the EMITTED netlist, because generateNetlist skips every
single mapping whose output is an output of a recorded DoubleCut. -/
theorem emittedSingles_disjoint (single : List (Nat × SingleCutE))
    (double : List ((Nat × Nat) × DoubleCutE)) (p : Nat × SingleCutE)
    (hp : p ∈ emittedSingles single double) :
    ∀ d ∈ double, d.1.1 ≠ p.1 ∧ d.1.2 ≠ p.1 := by
  intro d hd
  have h := (List.mem_filter.mp hp).2
  simp only [Bool.not_eq_true', List.any_eq_false] at h
  have h2 := h d hd
  constructor
  · intro hc
    rw [hc] at h2
    simp at h2
  · intro hc
    rw [hc] at h2
    simp at h2

/-- Witness for the corrected C2: applying the emission filter to the
overlapping result of the counterexample plus one untouched entry keeps
exactly the untouched entry, and its output collides with no double
output. -/
theorem emittedSingles_disjoint_witness :
    ((10, 11), dcC2).1.1 ≠ (12, ({ inputs := [1, 2], output := 12 } : SingleCutE)).1 ∧
    ((10, 11), dcC2).1.2 ≠ (12, ({ inputs := [1, 2], output := 12 } : SingleCutE)).1 :=
  emittedSingles_disjoint
    ((12, { inputs := [1, 2], output := 12 }) :: resC2.single) resC2.double
    (12, { inputs := [1, 2], output := 12 }) (by decide) ((10, 11), dcC2) (by decide)

/-! ### Claim C1 -/

/-- Modelled from the spec (section 8 property 4 and claim C1's
wording): TruthTable(z5, sorted(inputs minus i5)) must equal the lower
half of TruthTable(z, sorted(inputs minus i5) with i5 appended last). -/
def specDualOutputCorrect (sem : Nat → (Nat → Bool) → Option Bool) (dc : DoubleCutE) : Bool :=
  let rest := sortSigs (dc.inputs.filter (fun y => !(y == dc.selected_i5)))
  match computeLUTInitE (sem dc.output2) rest,
        computeLUTInitE (sem dc.output1) (rest ++ [dc.selected_i5]) with
  | Except.ok t5, Except.ok tz => t5 == tz.take (2 ^ rest.length)
  | _, _ => false

/-- Claim C1 fails on the code: Stage 2 of findBestDoubleCut builds the
Z input vector by POOL ITERATION order (global_merger.cc lines 710-714)
while the captured index maps — and the netlist emission in
dual_output_mapper.cc lines 317-328 — use the SORTED order.  On instC2
the pool order of Z's remaining inputs is [2,1,3,4,5]; the verification
accepts the pair (Z computes signal 1, Z5 computes signal 2, equal under
the twisted pool-order correspondence), yet the recorded DoubleCut
violates the sorted-order dual-output property the claim states. -/
theorem doubleCut_sorted_property_fails :
    runGlobalMapping instC2 = Except.ok (some resC2) ∧
    resC2.double = [((10, 11), dcC2)] ∧
    specDualOutputCorrect semC2 dcC2 = false := by
  refine ⟨by rfl, rfl, by decide⟩

/-! ### Claim C9 -/

/-- Best cuts for the C9 module: same shape as instC2 with outputs 20
and 21. -/
def bestCutC9 : Nat → List Nat := fun s =>
  if s = 20 then [2, 1, 3, 4, 5, 6] else if s = 21 then [1, 2, 3, 4, 5] else []

/-- Cone semantics with an unsupported gate in the cone of signal 20:
every evaluation of 20 fails; 21 evaluates to signal 2. -/
def semC9 : Nat → (Nat → Bool) → Option Bool := fun s g =>
  if s = 21 then some (g 2) else none

def instC9 : MergerInstance :=
  { combOut := [20, 21], poDriverOuts := [], bestCut := bestCutC9,
    combDriven := fun _ => false, sem := semC9, score := fun _ _ _ _ => 0,
    enableDouble := true, enq := enqAppend,
    enq_len := by intro c q; simp [enqAppend],
    enq_mem := by intro c q x hx; simp [enqAppend, hx],
    enq_self := by intro c q; simp [enqAppend],
    driven_comb := by intro x hx; simp at hx }

/-- Counterexample to claim C9: on instC9, the node 20 has a Stage-1
candidate (Z5 = 21, I5 = 6), and its Stage-2 truth-table computation
fails (the cone of 20 contains a gate the simulator cannot evaluate).
The failure is not confined to the candidate: computeLUTInit raises the
fatal error of truth_table_computer.cc line 55, which aborts the whole
mapping run — node 20 is never mapped as a single-output LUT and the
run does not proceed. -/
theorem truthTable_failure_aborts_run :
    runGlobalMapping instC9 = Except.error () := by
  rfl

/-- Claim C9 (corrected): a truth-table failure in Stage-2 verification
propagates: stage2Verify forwards the error of computeLUTInit instead of
rejecting the candidate, and the main loop forwards any error of
findBestDoubleCut, aborting runGlobalMapping. -/
theorem truthTable_failure_propagates :
    (∀ (sem : Nat → (Nat → Bool) → Option Bool) (now : Nat) (c : CandE) (cs : List CandE),
      computeLUTInitE (sem now) (c.z_remaining ++ [c.selected_i5]) = Except.error () →
      stage2Verify sem now (c :: cs) = Except.error ()) ∧
    (∀ (inst : MergerInstance) (n : Nat) (st : LoopState) (nowCut : SingleCutE)
      (rest : List SingleCutE), st.Q = nowCut :: rest → inst.enableDouble = true →
      findBestDoubleCut inst nowCut.output rest = Except.error () →
      mainLoopF inst (n + 1) st = Except.error ()) := by
  constructor
  · intro sem now c cs herr
    unfold stage2Verify
    rw [herr]
  · intro inst n st nowCut rest hQ hen herr
    exact mainLoopF_cons_error inst n st nowCut rest () hQ (by rw [if_pos hen, herr])

/-- Witness for the corrected C9 at the concrete failing module: the
first Stage-2 candidate of node 20 errors, and the main loop from the
initial state aborts. -/
theorem truthTable_failure_propagates_witness :
    stage2Verify semC9 20
      [{ z5_output := 21, z5_inputs := [1, 2, 3, 4, 5], selected_i5 := 6,
         z_remaining := [2, 1, 3, 4, 5], score := 0, dcIdx := [] }] = Except.error () ∧
    mainLoopF instC9 3 (initState instC9) = Except.error () :=
  ⟨truthTable_failure_propagates.1 semC9 20
      { z5_output := 21, z5_inputs := [1, 2, 3, 4, 5], selected_i5 := 6,
        z_remaining := [2, 1, 3, 4, 5], score := 0, dcIdx := [] } [] (by rfl),
   truthTable_failure_propagates.2 instC9 2 (initState instC9)
      { inputs := [2, 1, 3, 4, 5, 6], output := 20 }
      [{ inputs := [1, 2, 3, 4, 5], output := 21 }] (by rfl) (by rfl) (by rfl)⟩

/-! ### CutManager (src/techlibs/pango/cut_manager.cc) -/

/-- The static inputs of `computePriorityCuts`: the topological order of
signals, the driving gate's input list of each driven signal (`none` for
primary inputs and constants), and the evaluator comparator used by
`selectPriorityCuts` (abstracted: every theorem below holds for any
comparator). -/
structure CMInstance where
  topo : List Nat
  driver : Nat → Option (List Nat)
  cmp : SingleCutE → SingleCutE → Bool

/-- The mutable state of a CutManager: `cuts_by_size` (signal, size →
stored cuts) and `priority_cuts` (absent modelled as the empty list, as
`getPriorityCuts` returns an empty vector for absent signals). -/
structure CMState where
  cutsBySize : Nat → Nat → List (List Nat)
  priorityCuts : Nat → List SingleCutE

def initCM : CMState :=
  { cutsBySize := fun _ _ => [], priorityCuts := fun _ => [] }

/-- `CutManager::getPriorityCuts` (cut_manager.cc lines 88-95). -/
def getPriorityCuts (st : CMState) (s : Nat) : List SingleCutE :=
  st.priorityCuts s

/-- `CutManager::getBestCut` (cut_manager.cc lines 75-86). -/
def getBestCutCM (st : CMState) (s : Nat) : SingleCutE :=
  match st.priorityCuts s with
  | [] => { inputs := [s], output := s }
  | c :: _ => c

/-- Yosys pool-of-pool equality: two cuts are the same set. -/
def sameCutSet (a b : List Nat) : Bool :=
  sortSigs a == sortSigs b

/-- Insertion into a `pool<Cut>`: dropped when an equal set is present. -/
def poolInsertCut (c : List Nat) (cs : List (List Nat)) : List (List Nat) :=
  if cs.any (fun c2 => sameCutSet c2 c) then cs else cs ++ [c]

def poolAddCuts (cs : List (List Nat)) (news : List (List Nat)) : List (List Nat) :=
  news.foldl (fun acc c => poolInsertCut c acc) cs

/-- The cut family of a fan-in signal (cut_manager.cc lines 126-135 and
141-148): the input sets of its priority cuts, or the singleton of the
signal itself when it has none. -/
def cutFamilyOf (st : CMState) (x : Nat) : List (List Nat) :=
  match getPriorityCuts st x with
  | [] => [[x]]
  | pcs => pcs.map (fun sc => sc.inputs)

/-- One set-merge step (cut_manager.cc lines 164-174): the pairwise
pool-union of the running family with the next input's family, keeping
unions of at most K signals, deduplicated as sets. -/
def mergeStep (K : Nat) (family nextFam : List (List Nat)) : List (List Nat) :=
  family.foldl
    (fun acc c1 =>
      nextFam.foldl
        (fun acc2 c2 =>
          let merged := poolUnion c1 c2
          if merged.length ≤ K then poolInsertCut merged acc2 else acc2)
        acc)
    []

/-- `CutManager::enumerateCutsForGate` (cut_manager.cc lines 106-183):
no-input gates get the trivial cut, single-input gates inherit the
input's families, multi-input gates run the accumulating set-merge; the
results are stored in the by-size table keyed by their actual size. -/
def enumerateCutsForGate (K : Nat) (st : CMState) (output : Nat) (ivec : List Nat) :
    CMState :=
  let new_cuts : List (List Nat) :=
    match ivec with
    | [] => poolInsertCut [output] []
    | [x] => poolAddCuts [] (cutFamilyOf st x)
    | x :: rest =>
      rest.foldl
        (fun fam xi => mergeStep K fam (poolAddCuts [] (cutFamilyOf st xi)))
        (poolAddCuts [] (cutFamilyOf st x))
  { st with cutsBySize := fun s k =>
      if s = output then st.cutsBySize s k ++ new_cuts.filter (fun c => c.length = k)
      else st.cutsBySize s k }

/-- `CutManager::selectPriorityCuts` (cut_manager.cc lines 207-239):
collect the stored cuts of sizes 1..K, keep the state unchanged when
there are none, otherwise sort by the evaluator comparison and retain
the first P. -/
def selectPriorityCuts (inst : CMInstance) (K P : Nat) (st : CMState) (s : Nat) :
    CMState :=
  let all_cuts : List SingleCutE :=
    (List.range' 1 K).foldr
      (fun k acc =>
        (st.cutsBySize s k).map (fun c => ({ inputs := c, output := s } : SingleCutE)) ++ acc)
      []
  if all_cuts.isEmpty then st
  else { st with priorityCuts := fun s2 =>
      if s2 = s then (sortBy inst.cmp all_cuts).take P else st.priorityCuts s2 }

/-- `CutManager::computePriorityCuts` (cut_manager.cc lines 24-73):
clear both tables, then walk the topological order installing either the
trivial cut (undriven signals) or the enumerated cuts, selecting the
priority cuts of each signal as it is processed. -/
def computePriorityCuts (inst : CMInstance) (K P : Nat) : CMState :=
  inst.topo.foldl
    (fun st s =>
      let st1 := match inst.driver s with
        | none =>
          { st with cutsBySize := fun s2 k =>
              if s2 = s ∧ k = 1 then st.cutsBySize s2 k ++ [[s]] else st.cutsBySize s2 k }
        | some ivec => enumerateCutsForGate K st s ivec
      selectPriorityCuts inst K P st1 s)
    initCM

/-- A legal enumerated cut: nonempty, at most K signals, duplicate-free
(so its list length is exactly the pool size). -/
def GoodCut (K : Nat) (c : List Nat) : Prop :=
  1 ≤ c.length ∧ c.length ≤ K ∧ c.Nodup

theorem goodCut_poolInsertCut (K : Nat) (c : List Nat) (cs : List (List Nat))
    (hc : GoodCut K c) (hcs : ∀ c' ∈ cs, GoodCut K c') :
    ∀ c' ∈ poolInsertCut c cs, GoodCut K c' := by
  intro c' hc'
  unfold poolInsertCut at hc'
  split at hc'
  · exact hcs c' hc'
  · rcases List.mem_append.mp hc' with h | h
    · exact hcs c' h
    · rw [List.mem_singleton.mp h]
      exact hc

theorem goodCut_poolAddCuts (K : Nat) (cs news : List (List Nat))
    (hcs : ∀ c' ∈ cs, GoodCut K c') (hnews : ∀ c' ∈ news, GoodCut K c') :
    ∀ c' ∈ poolAddCuts cs news, GoodCut K c' := by
  induction news generalizing cs with
  | nil => exact hcs
  | cons a t ih =>
    exact ih (poolInsertCut a cs)
      (goodCut_poolInsertCut K a cs (hnews a (List.mem_cons_self a t)) hcs)
      (fun c' h => hnews c' (List.mem_cons_of_mem _ h))

theorem goodCut_mergeInner (K : Nat) (c1 : List Nat) (nextFam : List (List Nat))
    (acc : List (List Nat)) (hc1 : 1 ≤ c1.length ∧ c1.Nodup)
    (hacc : ∀ c' ∈ acc, GoodCut K c') :
    ∀ c' ∈ nextFam.foldl
      (fun acc2 c2 =>
        let merged := poolUnion c1 c2
        if merged.length ≤ K then poolInsertCut merged acc2 else acc2)
      acc, GoodCut K c' := by
  induction nextFam generalizing acc with
  | nil => exact hacc
  | cons c2 t ih =>
    refine ih _ ?_
    simp only
    split
    · rename_i hle
      refine goodCut_poolInsertCut K _ acc ?_ hacc
      exact ⟨hc1.1.trans (le_length_poolUnion c1 c2), hle, nodup_poolUnion c1 c2 hc1.2⟩
    · exact hacc

theorem goodCut_mergeStep (K : Nat) (family nextFam : List (List Nat))
    (hf : ∀ c ∈ family, 1 ≤ c.length ∧ c.Nodup) :
    ∀ c' ∈ mergeStep K family nextFam, GoodCut K c' := by
  unfold mergeStep
  have hgen : ∀ (fam : List (List Nat)) (acc : List (List Nat)),
      (∀ c ∈ fam, 1 ≤ c.length ∧ c.Nodup) → (∀ c' ∈ acc, GoodCut K c') →
      ∀ c' ∈ fam.foldl
        (fun acc c1 => nextFam.foldl
          (fun acc2 c2 =>
            let merged := poolUnion c1 c2
            if merged.length ≤ K then poolInsertCut merged acc2 else acc2)
          acc)
        acc, GoodCut K c' := by
    intro fam
    induction fam with
    | nil => exact fun acc _ hacc => hacc
    | cons c1 t ih =>
      intro acc hfam hacc
      exact ih _ (fun c h => hfam c (List.mem_cons_of_mem _ h))
        (goodCut_mergeInner K c1 nextFam acc (hfam c1 (List.mem_cons_self c1 t)) hacc)
  exact hgen family [] hf (by intro c' h; simp at h)

theorem goodCut_cutFamilyOf (K : Nat) (st : CMState) (x : Nat) (hK : 1 ≤ K)
    (hpc : ∀ sc ∈ st.priorityCuts x,
      1 ≤ sc.inputs.length ∧ sc.inputs.length ≤ K ∧ sc.inputs.Nodup) :
    ∀ c ∈ cutFamilyOf st x, GoodCut K c := by
  intro c hc
  unfold cutFamilyOf getPriorityCuts at hc
  cases hpcs : st.priorityCuts x with
  | nil =>
    rw [hpcs] at hc
    simp only [List.mem_singleton] at hc
    subst hc
    exact ⟨by simp, by simpa using hK, by simp⟩
  | cons p ps =>
    rw [hpcs] at hc
    rcases List.mem_map.mp hc with ⟨sc, hsc, hceq⟩
    subst hceq
    have h := hpc sc (hpcs ▸ hsc)
    exact ⟨h.1, h.2.1, h.2.2⟩

theorem goodCut_enumerate (K : Nat) (st : CMState) (output : Nat) (ivec : List Nat)
    (hK : 1 ≤ K)
    (hpc : ∀ x, ∀ sc ∈ st.priorityCuts x,
      1 ≤ sc.inputs.length ∧ sc.inputs.length ≤ K ∧ sc.inputs.Nodup) :
    ∀ c ∈ (match ivec with
      | [] => poolInsertCut [output] []
      | [x] => poolAddCuts [] (cutFamilyOf st x)
      | x :: rest =>
        rest.foldl
          (fun fam xi => mergeStep K fam (poolAddCuts [] (cutFamilyOf st xi)))
          (poolAddCuts [] (cutFamilyOf st x))), GoodCut K c := by
  match ivec with
  | [] =>
    intro c hc
    simp only [poolInsertCut, List.any_nil, Bool.false_eq_true, if_false,
      List.nil_append, List.mem_singleton] at hc
    subst hc
    exact ⟨by simp, by simpa using hK, by simp⟩
  | [x] =>
    exact goodCut_poolAddCuts K [] _ (by intro c' h; simp at h)
      (goodCut_cutFamilyOf K st x hK (hpc x))
  | x :: y :: rest =>
    have hbase : ∀ c ∈ poolAddCuts [] (cutFamilyOf st x), GoodCut K c :=
      goodCut_poolAddCuts K [] _ (by intro c' h; simp at h)
        (goodCut_cutFamilyOf K st x hK (hpc x))
    have hfold : ∀ (l : List Nat) (fam : List (List Nat)),
        (∀ c ∈ fam, GoodCut K c) →
        ∀ c ∈ l.foldl
          (fun fam xi => mergeStep K fam (poolAddCuts [] (cutFamilyOf st xi))) fam,
        GoodCut K c := by
      intro l
      induction l with
      | nil => exact fun fam h => h
      | cons a t ih =>
        intro fam hfam
        exact ih _ (goodCut_mergeStep K fam _ (fun c h => ⟨(hfam c h).1, (hfam c h).2.2⟩))
    exact hfold (y :: rest) _ hbase

/-- The CutManager invariant: every retained priority list has at most P
cuts of sizes 1..K (duplicate-free, so list length is pool size), and
every stored by-size bucket entry has exactly its key's size, within
1..K. -/
def CMInv (K P : Nat) (st : CMState) : Prop :=
  (∀ s, (st.priorityCuts s).length ≤ P ∧
    ∀ sc ∈ st.priorityCuts s,
      1 ≤ sc.inputs.length ∧ sc.inputs.length ≤ K ∧ sc.inputs.Nodup) ∧
  (∀ s k c, c ∈ st.cutsBySize s k → c.length = k ∧ 1 ≤ k ∧ k ≤ K ∧ c.Nodup)

theorem mem_collect_buckets (st : CMState) (s : Nat) :
    ∀ (ks : List Nat) (sc : SingleCutE),
    sc ∈ ks.foldr
      (fun k acc =>
        (st.cutsBySize s k).map (fun c => ({ inputs := c, output := s } : SingleCutE)) ++ acc)
      [] →
    ∃ k ∈ ks, ∃ c ∈ st.cutsBySize s k, sc = { inputs := c, output := s } := by
  intro ks
  induction ks with
  | nil =>
    intro sc h
    simp at h
  | cons k t ih =>
    intro sc h
    rcases List.mem_append.mp h with h1 | h1
    · rcases List.mem_map.mp h1 with ⟨c, hc, hceq⟩
      exact ⟨k, List.mem_cons_self k t, c, hc, hceq.symm⟩
    · rcases ih sc h1 with ⟨k', hk', c, hc, hceq⟩
      exact ⟨k', List.mem_cons_of_mem _ hk', c, hc, hceq⟩

theorem CMInv_select (inst : CMInstance) (K P : Nat) (st : CMState) (s : Nat)
    (h : CMInv K P st) : CMInv K P (selectPriorityCuts inst K P st s) := by
  unfold selectPriorityCuts
  dsimp only
  split
  · exact h
  · constructor
    · intro s2
      simp only
      split
      · rename_i hs2
        constructor
        · rw [List.length_take]
          exact min_le_left _ _
        · intro sc hsc
          have h1 : sc ∈ sortBy inst.cmp _ := List.take_subset _ _ hsc
          have h2 := mem_sortBy _ _ _ h1
          rcases mem_collect_buckets st s (List.range' 1 K) sc h2 with ⟨k, hk, c, hc, hceq⟩
          have hb := h.2 s k c hc
          subst hceq
          refine ⟨?_, ?_, ?_⟩
          · show 1 ≤ c.length
            omega
          · show c.length ≤ K
            omega
          · show c.Nodup
            exact hb.2.2.2
      · exact h.1 s2
    · exact h.2

theorem CMInv_trivial (K P : Nat) (st : CMState) (s : Nat) (hK : 1 ≤ K)
    (h : CMInv K P st) :
    CMInv K P { st with cutsBySize := fun s2 k =>
      if s2 = s ∧ k = 1 then st.cutsBySize s2 k ++ [[s]] else st.cutsBySize s2 k } := by
  refine ⟨h.1, ?_⟩
  intro s2 k c hc
  simp only at hc
  split at hc
  · rename_i hcond
    rcases List.mem_append.mp hc with h1 | h1
    · exact h.2 s2 k c h1
    · rw [List.mem_singleton.mp h1]
      exact ⟨by simp [hcond.2], by omega, by omega, by simp⟩
  · exact h.2 s2 k c hc

theorem CMInv_enumerate (K P : Nat) (st : CMState) (output : Nat) (ivec : List Nat)
    (hK : 1 ≤ K) (h : CMInv K P st) :
    CMInv K P (enumerateCutsForGate K st output ivec) := by
  refine ⟨h.1, ?_⟩
  intro s2 k c hc
  have hgood := goodCut_enumerate K st output ivec hK (fun x => (h.1 x).2)
  unfold enumerateCutsForGate at hc
  simp only at hc
  split at hc
  · rcases List.mem_append.mp hc with h1 | h1
    · exact h.2 s2 k c h1
    · have h2 := List.mem_filter.mp h1
      have h3 : 1 ≤ c.length ∧ c.length ≤ K ∧ c.Nodup := hgood c h2.1
      have h4 : c.length = k := by simpa using h2.2
      exact ⟨h4, by omega, by omega, h3.2.2⟩
  · exact h.2 s2 k c hc

/-- Claim C7: after computePriorityCuts(K, P) with K at least 1, every
signal's retained priority-cut list has at most P elements and each of
its cuts has between 1 and K (distinct) inputs; likewise every cut
stored by the set-merge enumeration in the by-size table has between 1
and K inputs (and sits in the bucket of its exact size). -/
theorem computePriorityCuts_bounds (inst : CMInstance) (K P : Nat) (hK : 1 ≤ K) :
    ∀ s, (((computePriorityCuts inst K P).priorityCuts s).length ≤ P ∧
      (∀ sc ∈ (computePriorityCuts inst K P).priorityCuts s,
        1 ≤ sc.inputs.length ∧ sc.inputs.length ≤ K ∧ sc.inputs.Nodup)) ∧
      (∀ k c, c ∈ (computePriorityCuts inst K P).cutsBySize s k →
        c.length = k ∧ 1 ≤ k ∧ k ≤ K ∧ c.Nodup) := by
  have hInit : CMInv K P initCM := by
    constructor
    · intro s
      exact ⟨by simp [initCM], by intro sc h; simp [initCM] at h⟩
    · intro s k c h
      simp [initCM] at h
  have hfold : ∀ (l : List Nat) (st : CMState), CMInv K P st →
      CMInv K P (l.foldl
        (fun st s =>
          let st1 := match inst.driver s with
            | none =>
              { st with cutsBySize := fun s2 k =>
                  if s2 = s ∧ k = 1 then st.cutsBySize s2 k ++ [[s]]
                  else st.cutsBySize s2 k }
            | some ivec => enumerateCutsForGate K st s ivec
          selectPriorityCuts inst K P st1 s)
        st) := by
    intro l
    induction l with
    | nil => exact fun st h => h
    | cons a t ih =>
      intro st h
      refine ih _ ?_
      simp only
      cases hd : inst.driver a with
      | none => exact CMInv_select inst K P _ a (CMInv_trivial K P st a hK h)
      | some ivec => exact CMInv_select inst K P _ a (CMInv_enumerate K P st a ivec hK h)
  have hmain : CMInv K P (computePriorityCuts inst K P) := hfold inst.topo initCM hInit
  intro s
  exact ⟨⟨(hmain.1 s).1, (hmain.1 s).2⟩, fun k c hc => hmain.2 s k c hc⟩

/-- A concrete CutManager module for the C7 witness: signal 1 is a
primary input, signal 2 is driven by a 2-input gate reading signal 1 on
both pins. -/
def instW : CMInstance :=
  { topo := [1, 2], driver := fun s => if s = 2 then some [1, 1] else none,
    cmp := fun _ _ => true }

/-- Witness for C7 at the concrete module instW with K = 2, P = 1. -/
theorem computePriorityCuts_bounds_witness :
    ((computePriorityCuts instW 2 1).priorityCuts 2).length ≤ 1 :=
  ((computePriorityCuts_bounds instW 2 1 (by decide)) 2).1.1
